import Mathlib

/-!
# Producer / consumer over a bounded buffer (`producer-consumer.c`)

A shallow embedding of the synchronisation core of `producer-consumer.c`:
the hand-written counting semaphore (`sem_t`, `sem_init`, `sem_post`, `block`,
`sem_wait`) and the bounded buffer built on two such semaphores (`Buffer`,
`buffer_init`, `add`, `rem`).

Conventions of the embedding.

* The `int` fields `count` and `pending_posts` and the `int` work items range
  over the mathematical integers; signed overflow, which C leaves undefined,
  is outside the model.
* The `unsigned int` cursors are natural numbers and `atomic_fetch_add` on them
  is taken modulo `2 ^ 32`.
* `int buf[BUFFER_SIZE]` is a function on `Fin BUFFER_SIZE`.  An access
  `buf[i]` with `i ≥ BUFFER_SIZE` has no defined behaviour in C.  The embedding
  has two readings of it.  In the checked reading (`store`, `load`, `add`,
  `rem`, `exec`) it is the fault `Fault.outOfRange`.  In the layout reading
  (`store_word`, `load_word`, `add_mem`, `rem_mem`, `exec_mem`, `chanStep`) the
  source's unchecked access goes to the word of `struct Buffer` at that
  offset: `buf[4]` is `first_occupied_slot`, `buf[5]` is `first_empty_slot`,
  `buf[6]` and `buf[7]` are the two `int` fields of `sem_producer`; what lies
  further depends on `pthread_mutex_t`, which the source does not declare, and
  is a parameter.  The two readings agree on every run of the checked one that
  returns.
* A `pthread_mutex_t` makes the section it protects atomic; each protected
  section is one function of the embedding and one step of the step models.
* `block` polls forever when nobody changes the semaphore; it is embedded with
  a bound on the number of polls and returns `none` when the bound is used up.
* The calls of `pthread_mutex_lock` and `pthread_mutex_unlock` made by one call
  of `add` or `rem` are embedded as a list of lock events.
-/

namespace ProducerConsumer

/-! ## Constants -/

/-- The macro `BUFFER_SIZE` (line 9). -/
def BUFFER_SIZE : Nat := 4

/-- Number of values of an `unsigned int`. -/
def UINT_MOD : Nat := 2 ^ 32

/-! ## The semaphore -/

/-- The struct `sem_t` (lines 12-16) without its mutex. -/
structure sem_t where
  count : Int
  pending_posts : Int
deriving DecidableEq

/-- The function `sem_init` (lines 19-23): the value written through `sem`. -/
def sem_init (_ignore : Int) (init : Int) : sem_t :=
  ⟨init, 0⟩

/-- The function `sem_post` (lines 26-33). -/
def sem_post (sem : sem_t) : sem_t :=
  let count := sem.count + 1
  if count ≤ 0 then ⟨count, sem.pending_posts + 1⟩ else ⟨count, sem.pending_posts⟩

/-- One iteration of the loop of `block` (lines 39-45), from `pthread_mutex_lock`
to the matching `pthread_mutex_unlock`.  The Boolean tells whether `block`
returned in this iteration. -/
def block_iter (sem : sem_t) : sem_t × Bool :=
  if 0 ≤ sem.count ∨ 0 < sem.pending_posts then
    (⟨sem.count, sem.pending_posts - 1⟩, true)
  else
    (sem, false)

/-- The function `block` (lines 37-49) run alone on the semaphore, with at most
`fuel` polls; `none` when it has not returned within `fuel` polls. -/
def block : Nat → sem_t → Option sem_t
  | 0, _ => none
  | fuel + 1, sem =>
    match block_iter sem with
    | (s, true) => some s
    | (s, false) => block fuel s

/-- The locked entry section of `sem_wait` (lines 53-55): the decrement and the
test `sem->count < 0`.  The Boolean tells whether the caller goes on to
`block`. -/
def sem_wait_entry (sem : sem_t) : sem_t × Bool :=
  let s : sem_t := ⟨sem.count - 1, sem.pending_posts⟩
  (s, decide (s.count < 0))

/-- The function `sem_wait` (lines 52-62) run alone on the semaphore. -/
def sem_wait (fuel : Nat) (sem : sem_t) : Option sem_t :=
  match sem_wait_entry sem with
  | (s, true) => block fuel s
  | (s, false) => some s

/-! ## The bounded buffer -/

/-- The struct `Buffer` (lines 65-72) without its mutex `mut_buf`. -/
structure Buffer where
  buf : Fin BUFFER_SIZE → Int
  first_occupied_slot : Nat
  first_empty_slot : Nat
  sem_producer : sem_t
  sem_consumer : sem_t

/-- Ways in which a call of `add` or `rem`, run alone, fails to return a
value: it polls forever in `block`, or it indexes `buf` outside the array. -/
inductive Fault where
  | blocked
  | outOfRange
deriving DecidableEq

/-- The store `buf->buf[i] = val` (line 86); `none` when `i` is not an index
of the array. -/
def store (a : Fin BUFFER_SIZE → Int) (i : Nat) (val : Int) :
    Option (Fin BUFFER_SIZE → Int) :=
  if h : i < BUFFER_SIZE then some (Function.update a ⟨i, h⟩ val) else none

/-- The load `buf->buf[i]` (line 108); `none` when `i` is not an index of the
array. -/
def load (a : Fin BUFFER_SIZE → Int) (i : Nat) : Option Int :=
  if h : i < BUFFER_SIZE then some (a ⟨i, h⟩) else none

/-- The call `atomic_fetch_add(&x, 1)` on an `unsigned int`: the value
returned and the value left in `x`. -/
def atomic_fetch_add (x : Nat) : Nat × Nat :=
  (x, (x + 1) % UINT_MOD)

/-- The cursor update shared by `add` (lines 88-93) and `rem` (lines 110-115):
`ii = atomic_fetch_add(&cursor, 1); if (ii >= BUFFER_SIZE) cursor = 0;`.
The result is the value left in the cursor. -/
def advance (cursor : Nat) : Nat :=
  let ii := (atomic_fetch_add cursor).1
  let cursor1 := (atomic_fetch_add cursor).2
  if BUFFER_SIZE ≤ ii then 0 else cursor1

/-- The section of `add` protected by `mut_buf` (lines 83-95); `none` when the
store is out of range. -/
def add_section (b : Buffer) (val : Int) : Option Buffer :=
  match store b.buf b.first_empty_slot val with
  | none => none
  | some a =>
    some { b with buf := a, first_empty_slot := advance b.first_empty_slot }

/-- The section of `rem` protected by `mut_buf` (lines 105-117), with the value
it reads; `none` when the load is out of range. -/
def rem_section (b : Buffer) : Option (Int × Buffer) :=
  match load b.buf b.first_occupied_slot with
  | none => none
  | some val =>
    some (val, { b with first_occupied_slot := advance b.first_occupied_slot })

/-- The function `add` (lines 79-98) run alone on the buffer. -/
def add (fuel : Nat) (b : Buffer) (val : Int) : Except Fault Buffer :=
  match sem_wait fuel b.sem_producer with
  | none => Except.error Fault.blocked
  | some sp =>
    match add_section { b with sem_producer := sp } val with
    | none => Except.error Fault.outOfRange
    | some b1 => Except.ok { b1 with sem_consumer := sem_post b1.sem_consumer }

/-- The function `rem` (lines 101-121) run alone on the buffer: the value
returned and the buffer left behind. -/
def rem (fuel : Nat) (b : Buffer) : Except Fault (Int × Buffer) :=
  match sem_wait fuel b.sem_consumer with
  | none => Except.error Fault.blocked
  | some sc =>
    match rem_section { b with sem_consumer := sc } with
    | none => Except.error Fault.outOfRange
    | some (val, b1) =>
      Except.ok (val, { b1 with sem_producer := sem_post b1.sem_producer })

/-- The function `buffer_init` (lines 159-165): it resets the cursors and the
two semaphores and leaves the array as it finds it. -/
def buffer_init (b : Buffer) : Buffer :=
  { b with
    first_occupied_slot := 0
    first_empty_slot := 0
    sem_producer := sem_init 0 BUFFER_SIZE
    sem_consumer := sem_init 0 0 }

/-! ## Sequential schedules of `add` and `rem` -/

/-- One call on a channel: `add(buf, v)` or `rem(buf)`. -/
inductive Op where
  | put (v : Int)
  | take
deriving DecidableEq

/-- Runs a schedule of calls one after the other; the result is the buffer at
the end and the values returned by the `rem` calls, in order. -/
def exec (fuel : Nat) : Buffer → List Op → Except Fault (Buffer × List Int)
  | b, [] => Except.ok (b, [])
  | b, Op.put v :: ops =>
    match add fuel b v with
    | Except.error e => Except.error e
    | Except.ok b1 => exec fuel b1 ops
  | b, Op.take :: ops =>
    match rem fuel b with
    | Except.error e => Except.error e
    | Except.ok (val, b1) =>
      match exec fuel b1 ops with
      | Except.error e => Except.error e
      | Except.ok (b2, out) => Except.ok (b2, val :: out)

/-- The values passed to `add` in a schedule, in order. -/
def puts : List Op → List Int
  | [] => []
  | Op.put v :: ops => v :: puts ops
  | Op.take :: ops => puts ops

/-- The number of `rem` calls in a schedule. -/
def takes : List Op → Nat
  | [] => 0
  | Op.put _ :: ops => takes ops
  | Op.take :: ops => takes ops + 1

/-- No call of the schedule has to block: at every prefix the number of takes
is at most the number of puts, which is at most the number of takes plus
`BUFFER_SIZE`. -/
def NonBlocking (ops : List Op) : Prop :=
  ∀ n, n ≤ ops.length →
    takes (ops.take n) ≤ (puts (ops.take n)).length ∧
      (puts (ops.take n)).length ≤ takes (ops.take n) + BUFFER_SIZE

/-- The values returned by a run, without the final buffer. -/
def outputs (r : Except Fault (Buffer × List Int)) : Except Fault (List Int) :=
  match r with
  | Except.error e => Except.error e
  | Except.ok (_, out) => Except.ok out

/-- The buffer at the end of a run. -/
def finalBuffer (r : Except Fault (Buffer × List Int)) : Option Buffer :=
  match r with
  | Except.error _ => none
  | Except.ok (b, _) => some b

/-- The value of a global `Buffer` before `buffer_init`: all zero. -/
def zeroBuffer : Buffer :=
  ⟨fun _ => 0, 0, 0, ⟨0, 0⟩, ⟨0, 0⟩⟩

/-- The schedule of Scenario 1: put 1, put 2, take, put 3, take, take. -/
def scenario1 : List Op :=
  [Op.put 1, Op.put 2, Op.take, Op.put 3, Op.take, Op.take]

/-- Four puts: as many as the buffer has slots. -/
def fourPuts : List Op :=
  [Op.put 1, Op.put 2, Op.put 3, Op.put 4]

/-- A schedule in which no call has to block and which puts five values, one
more than the buffer has slots. -/
def fivePuts : List Op :=
  [Op.put 1, Op.put 2, Op.put 3, Op.put 4, Op.take, Op.put 5,
    Op.take, Op.take, Op.take, Op.take]

/-- Four puts, one take to make room, and one more put. -/
def fifthPut : List Op :=
  [Op.put 1, Op.put 2, Op.put 3, Op.put 4, Op.take, Op.put 5]

/-! ## Step model of one semaphore shared by several callers -/

/-- The atomic steps that callers perform on one semaphore: a whole `sem_post`,
the locked entry section of a `sem_wait`, and one locked iteration of `block`
by a caller that is waiting. -/
inductive SemAction where
  | post
  | enter
  | poll
deriving DecidableEq

/-- A semaphore together with the number of callers inside `block` (or between
their decrement and their first poll) and counters of what has happened:
`entered` decrements by `sem_wait`, `posted` calls of `sem_post`, `acquired`
calls of `sem_wait` that have got past the semaphore. -/
structure SemModel where
  sem : sem_t
  waiters : Nat
  entered : Nat
  posted : Nat
  acquired : Nat
deriving DecidableEq

/-- The model after `sem_init(sem, 0, k)`. -/
def semStart (k : Int) : SemModel :=
  ⟨sem_init 0 k, 0, 0, 0, 0⟩

/-- One step of the model; `none` when the step cannot happen (a poll when no
caller is waiting). -/
def semStep (m : SemModel) : SemAction → Option SemModel
  | SemAction.post =>
    some { m with sem := sem_post m.sem, posted := m.posted + 1 }
  | SemAction.enter =>
    match sem_wait_entry m.sem with
    | (s, true) =>
      some { m with sem := s, entered := m.entered + 1, waiters := m.waiters + 1 }
    | (s, false) =>
      some { m with sem := s, entered := m.entered + 1, acquired := m.acquired + 1 }
  | SemAction.poll =>
    if m.waiters = 0 then none
    else
      match block_iter m.sem with
      | (s, true) =>
        some { m with sem := s, waiters := m.waiters - 1, acquired := m.acquired + 1 }
      | (s, false) => some { m with sem := s }

/-- An interleaving: the steps are taken one after the other. -/
def semRun : SemModel → List SemAction → Option SemModel
  | m, [] => some m
  | m, a :: acts =>
    match semStep m a with
    | none => none
    | some m1 => semRun m1 acts

/-! ## The accesses to `buf` at the layout of `struct Buffer` -/

/-- The memory past `sem_producer.pending_posts`, that is from `buf[8]` on:
the mutex of `sem_producer`, `sem_consumer`, `mut_buf` and whatever follows
the struct.  Where these lie depends on `pthread_mutex_t`, which the source
does not declare, so the value that a load finds there and the effect of a
store there on the modelled fields are parameters. -/
structure FarMemory where
  load : Buffer → Nat → Int
  store : Buffer → Nat → Int → Buffer

/-- An `int` written to an `unsigned int` word. -/
def to_unsigned (val : Int) : Nat :=
  (val % (UINT_MOD : Int)).toNat

/-- An `unsigned int` word read as an `int`. -/
def to_int (c : Nat) : Int :=
  if c % UINT_MOD < UINT_MOD / 2 then ((c % UINT_MOD : Nat) : Int)
  else ((c % UINT_MOD : Nat) : Int) - (UINT_MOD : Int)

/-- The store `buf->buf[i] = val` (line 86) with no bounds check, as the source
has it: inside the array for `i < BUFFER_SIZE`, and on the word of
`struct Buffer` that lies at that offset otherwise. -/
def store_word (M : FarMemory) (b : Buffer) (i : Nat) (val : Int) : Buffer :=
  if h : i < BUFFER_SIZE then { b with buf := Function.update b.buf ⟨i, h⟩ val }
  else if i = BUFFER_SIZE then { b with first_occupied_slot := to_unsigned val }
  else if i = BUFFER_SIZE + 1 then { b with first_empty_slot := to_unsigned val }
  else if i = BUFFER_SIZE + 2 then
    { b with sem_producer := ⟨val, b.sem_producer.pending_posts⟩ }
  else if i = BUFFER_SIZE + 3 then
    { b with sem_producer := ⟨b.sem_producer.count, val⟩ }
  else M.store b i val

/-- The load `buf->buf[i]` (line 108) with no bounds check, as the source has
it. -/
def load_word (M : FarMemory) (b : Buffer) (i : Nat) : Int :=
  if h : i < BUFFER_SIZE then b.buf ⟨i, h⟩
  else if i = BUFFER_SIZE then to_int b.first_occupied_slot
  else if i = BUFFER_SIZE + 1 then to_int b.first_empty_slot
  else if i = BUFFER_SIZE + 2 then b.sem_producer.count
  else if i = BUFFER_SIZE + 3 then b.sem_producer.pending_posts
  else M.load b i

/-- The section of `add` protected by `mut_buf` (lines 83-95): the store, then
the update of the write cursor as the store has left it. -/
def add_section_mem (M : FarMemory) (b : Buffer) (val : Int) : Buffer :=
  let b1 := store_word M b b.first_empty_slot val
  { b1 with first_empty_slot := advance b1.first_empty_slot }

/-- The section of `rem` protected by `mut_buf` (lines 105-117), with the value
it reads. -/
def rem_section_mem (M : FarMemory) (b : Buffer) : Int × Buffer :=
  (load_word M b b.first_occupied_slot,
    { b with first_occupied_slot := advance b.first_occupied_slot })

/-- The function `add` (lines 79-98) run alone on the buffer; `none` when it
polls forever in `block`. -/
def add_mem (M : FarMemory) (fuel : Nat) (b : Buffer) (val : Int) : Option Buffer :=
  match sem_wait fuel b.sem_producer with
  | none => none
  | some sp =>
    let b1 := add_section_mem M { b with sem_producer := sp } val
    some { b1 with sem_consumer := sem_post b1.sem_consumer }

/-- The function `rem` (lines 101-121) run alone on the buffer: the value
returned and the buffer left behind; `none` when it polls forever in
`block`. -/
def rem_mem (M : FarMemory) (fuel : Nat) (b : Buffer) : Option (Int × Buffer) :=
  match sem_wait fuel b.sem_consumer with
  | none => none
  | some sc =>
    match rem_section_mem M { b with sem_consumer := sc } with
    | (val, b1) => some (val, { b1 with sem_producer := sem_post b1.sem_producer })

/-- Runs a schedule of calls one after the other; the result is the buffer at
the end and the values returned by the `rem` calls, in order. -/
def exec_mem (M : FarMemory) (fuel : Nat) : Buffer → List Op → Option (Buffer × List Int)
  | b, [] => some (b, [])
  | b, Op.put v :: ops =>
    match add_mem M fuel b v with
    | none => none
    | some b1 => exec_mem M fuel b1 ops
  | b, Op.take :: ops =>
    match rem_mem M fuel b with
    | none => none
    | some (val, b1) =>
      match exec_mem M fuel b1 ops with
      | none => none
      | some (b2, out) => some (b2, val :: out)

/-- A far memory that reads as zero and that absorbs stores. -/
def zeroFar : FarMemory :=
  ⟨fun _ _ => 0, fun b _ _ => b⟩

/-- The values returned by a run. -/
def outputs_mem (r : Option (Buffer × List Int)) : Option (List Int) :=
  r.map (fun p => p.2)

/-- The atomic steps of the calls of `add` and `rem` on one channel.  A call of
`add` performs `addEnter`, then `addPoll` until one succeeds if it has to
wait, then `addStore` (the section under `mut_buf`), then `addPost`; a call of
`rem` performs `remEnter`, `remPoll`, `remLoad`, `remPost` likewise. -/
inductive ChanAction where
  | addEnter
  | addPoll
  | addStore (val : Int)
  | addPost
  | remEnter
  | remPoll
  | remLoad
  | remPost

/-- A channel together with the number of calls at each point of `add`
(`addWaiting` in `block`, `addReady` past `sem_wait` and before the section
under `mut_buf`, `addStored` past that section and before `sem_post`) and of
`rem` likewise, and counters: `addsPastWait` calls of `add` that have got past
`sem_wait(&buf->sem_producer)`, `addsDone` calls of `add` that have returned,
`remsPosted` calls of `rem` that have performed
`sem_post(&buf->sem_producer)`. -/
structure ChanModel where
  buf : Buffer
  addWaiting : Nat
  addReady : Nat
  addStored : Nat
  remWaiting : Nat
  remReady : Nat
  remLoaded : Nat
  addsPastWait : Nat
  addsDone : Nat
  remsPosted : Nat

/-- The model after `buffer_init(buf)`. -/
def chanStart (b : Buffer) : ChanModel :=
  ⟨buffer_init b, 0, 0, 0, 0, 0, 0, 0, 0, 0⟩

/-- One step of the channel model; `none` when the step cannot happen because
no call is at that point.  The sections under `mut_buf` access `buf` with no
bounds check, as the source does. -/
def chanStep (M : FarMemory) (m : ChanModel) : ChanAction → Option ChanModel
  | ChanAction.addEnter =>
    match sem_wait_entry m.buf.sem_producer with
    | (s, true) =>
      some { m with buf := { m.buf with sem_producer := s }
                    addWaiting := m.addWaiting + 1 }
    | (s, false) =>
      some { m with buf := { m.buf with sem_producer := s }
                    addReady := m.addReady + 1
                    addsPastWait := m.addsPastWait + 1 }
  | ChanAction.addPoll =>
    if m.addWaiting = 0 then none
    else
      match block_iter m.buf.sem_producer with
      | (s, true) =>
        some { m with buf := { m.buf with sem_producer := s }
                      addWaiting := m.addWaiting - 1
                      addReady := m.addReady + 1
                      addsPastWait := m.addsPastWait + 1 }
      | (s, false) => some { m with buf := { m.buf with sem_producer := s } }
  | ChanAction.addStore val =>
    if m.addReady = 0 then none
    else
      some { m with buf := add_section_mem M m.buf val
                    addReady := m.addReady - 1
                    addStored := m.addStored + 1 }
  | ChanAction.addPost =>
    if m.addStored = 0 then none
    else
      some { m with buf := { m.buf with sem_consumer := sem_post m.buf.sem_consumer }
                    addStored := m.addStored - 1
                    addsDone := m.addsDone + 1 }
  | ChanAction.remEnter =>
    match sem_wait_entry m.buf.sem_consumer with
    | (s, true) =>
      some { m with buf := { m.buf with sem_consumer := s }
                    remWaiting := m.remWaiting + 1 }
    | (s, false) =>
      some { m with buf := { m.buf with sem_consumer := s }
                    remReady := m.remReady + 1 }
  | ChanAction.remPoll =>
    if m.remWaiting = 0 then none
    else
      match block_iter m.buf.sem_consumer with
      | (s, true) =>
        some { m with buf := { m.buf with sem_consumer := s }
                      remWaiting := m.remWaiting - 1
                      remReady := m.remReady + 1 }
      | (s, false) => some { m with buf := { m.buf with sem_consumer := s } }
  | ChanAction.remLoad =>
    if m.remReady = 0 then none
    else
      some { m with buf := (rem_section_mem M m.buf).2
                    remReady := m.remReady - 1
                    remLoaded := m.remLoaded + 1 }
  | ChanAction.remPost =>
    if m.remLoaded = 0 then none
    else
      some { m with buf := { m.buf with sem_producer := sem_post m.buf.sem_producer }
                    remLoaded := m.remLoaded - 1
                    remsPosted := m.remsPosted + 1 }

/-- An interleaving of calls on the channel. -/
def chanRun (M : FarMemory) : ChanModel → List ChanAction → Option ChanModel
  | m, [] => some m
  | m, a :: acts =>
    match chanStep M m a with
    | none => none
    | some m1 => chanRun M m1 acts

/-! ## Invariants -/

/-- The link between the pending posts, the callers waiting in `block` and the
count of a semaphore: `pending_posts` is never negative, and it is the number
of waiters less the overdraft `-count` of the semaphore, if any. -/
def SemInv (s : sem_t) (w : Nat) : Prop :=
  0 ≤ s.pending_posts ∧ s.pending_posts = (w : Int) + min s.count 0

/-- What holds in every state of the semaphore model started at `k`. -/
def SemModelInv (k : Int) (m : SemModel) : Prop :=
  SemInv m.sem m.waiters ∧
    m.sem.count = k + (m.posted : Int) - (m.entered : Int) ∧
      m.entered = m.acquired + m.waiters

/-- What holds of a channel at rest when no call ever had to block: no post
is pending, both counts are non-negative and add up to `BUFFER_SIZE`, and the
count of `sem_consumer` is the distance between the two cursors. -/
def RestInv (b : Buffer) : Prop :=
  b.sem_producer.pending_posts = 0 ∧ b.sem_consumer.pending_posts = 0 ∧
    0 ≤ b.sem_producer.count ∧ 0 ≤ b.sem_consumer.count ∧
      b.sem_producer.count + b.sem_consumer.count = (BUFFER_SIZE : Int) ∧
        b.sem_consumer.count = (b.first_empty_slot : Int) - (b.first_occupied_slot : Int)

/-- What holds in every state of the channel model: the invariant of
`sem_producer` with the calls of `add` that wait, the accounts of the two
counts, and a write cursor of at most `BUFFER_SIZE`, so that no store goes past
`first_occupied_slot`. -/
def ChanInv (m : ChanModel) : Prop :=
  SemInv m.buf.sem_producer m.addWaiting ∧
    m.buf.sem_producer.count =
      (BUFFER_SIZE : Int) + (m.remsPosted : Int) - (m.addsPastWait : Int) -
        (m.addWaiting : Int) ∧
    m.addsPastWait = m.addReady + m.addStored + m.addsDone ∧
    m.buf.sem_consumer.count =
      (m.addsDone : Int) -
        ((m.remWaiting : Int) + (m.remReady : Int) + (m.remLoaded : Int) +
          (m.remsPosted : Int)) ∧
    m.buf.first_empty_slot ≤ BUFFER_SIZE

/-- What holds of a channel at rest when no call ever had to block, whatever
the number of calls: no post is pending, both counts are non-negative and add
up to `BUFFER_SIZE`, and the write cursor is at most `BUFFER_SIZE`. -/
def MemInv (b : Buffer) : Prop :=
  b.sem_producer.pending_posts = 0 ∧ b.sem_consumer.pending_posts = 0 ∧
    0 ≤ b.sem_producer.count ∧ 0 ≤ b.sem_consumer.count ∧
      b.sem_producer.count + b.sem_consumer.count = (BUFFER_SIZE : Int) ∧
        b.first_empty_slot ≤ BUFFER_SIZE

/-- The steps of one call of `add` that does not have to wait. -/
def putCall (v : Int) : List ChanAction :=
  [ChanAction.addEnter, ChanAction.addStore v, ChanAction.addPost]

/-- The steps of one call of `rem` that does not have to wait. -/
def takeCall : List ChanAction :=
  [ChanAction.remEnter, ChanAction.remLoad, ChanAction.remPost]

/-- The channel is full and at rest: `BUFFER_SIZE` calls of `add` have
completed, no other call of `add` is under way, and no call of `rem` has
started. -/
def FullAtRest (m : ChanModel) : Prop :=
  m.addsDone = BUFFER_SIZE ∧ m.addWaiting = 0 ∧ m.addReady = 0 ∧ m.addStored = 0 ∧
    m.remWaiting = 0 ∧ m.remReady = 0 ∧ m.remLoaded = 0 ∧ m.remsPosted = 0

/-- A further `add` waits until a `rem` posts: its `sem_wait` leaves
`sem_producer.count = -1` and makes it a waiter; a poll of `block` by it leaves
the state unchanged before the `rem`, after the `rem` has entered and after the
`rem` has read its slot; once the `rem` has posted `sem_producer` the poll
succeeds and the `add` is past `sem_wait`. -/
def BlocksUntilTake (M : FarMemory) (m : ChanModel) : Prop :=
  ∃ m1, chanStep M m ChanAction.addEnter = some m1 ∧
    m1.buf.sem_producer.count = -1 ∧ m1.addWaiting = 1 ∧
    m1.addsPastWait = m.addsPastWait ∧
    (∀ n, chanRun M m1 (List.replicate n ChanAction.addPoll) = some m1) ∧
    (∃ m2, chanRun M m1 (takeCall.take 1) = some m2 ∧
      chanStep M m2 ChanAction.addPoll = some m2) ∧
    (∃ m2, chanRun M m1 (takeCall.take 2) = some m2 ∧
      chanStep M m2 ChanAction.addPoll = some m2) ∧
    (∃ m2 m3, chanRun M m1 takeCall = some m2 ∧
      chanStep M m2 ChanAction.addPoll = some m3 ∧
      m3.addWaiting = 0 ∧ m3.addsPastWait = m.addsPastWait + 1)

/-- The channel model after four calls `add(buf, 1)`, ..., `add(buf, 4)` on the
zero buffer. -/
def fullChannel : ChanModel :=
  ⟨⟨Function.update (Function.update (Function.update (Function.update
      (fun _ => 0) ⟨0, by decide⟩ 1) ⟨1, by decide⟩ 2) ⟨2, by decide⟩ 3) ⟨3, by decide⟩ 4,
    0, 4, ⟨0, 0⟩, ⟨4, 0⟩⟩, 0, 0, 0, 0, 0, 0, 4, 4, 0⟩

/-- What holds of the pending posts in every state of the semaphore model
started at any integer `k`: they are never negative, and they are the number of
waiters less the overdraft of the semaphore, plus the overdraft `-k` that the
semaphore started with, if any. -/
def SemPendingInv (k : Int) (m : SemModel) : Prop :=
  0 ≤ m.sem.pending_posts ∧
    m.sem.pending_posts = (m.waiters : Int) + min m.sem.count 0 - min k 0

/-- Three puts: the write cursor is then on the last slot of the array. -/
def threePuts : List Op :=
  [Op.put 1, Op.put 2, Op.put 3]

/-- Four puts and three takes: the read cursor is then on the last slot of the
array. -/
def fourPutsThreeTakes : List Op :=
  [Op.put 1, Op.put 2, Op.put 3, Op.put 4, Op.take, Op.take, Op.take]

/-- Four puts and four takes. -/
def fourPutsFourTakes : List Op :=
  [Op.put 1, Op.put 2, Op.put 3, Op.put 4, Op.take, Op.take, Op.take, Op.take]

/-- The read cursor at the end of a run. -/
def finalReadCursor (r : Except Fault (Buffer × List Int)) : Option Nat :=
  (finalBuffer r).map (fun b => b.first_occupied_slot)

/-- The write cursor at the end of a run. -/
def finalWriteCursor (r : Except Fault (Buffer × List Int)) : Option Nat :=
  (finalBuffer r).map (fun b => b.first_empty_slot)

/-- The channel after `add(buf, 7)` on the initialised zero buffer. -/
def afterOnePut : Buffer :=
  ⟨Function.update zeroBuffer.buf ⟨0, by decide⟩ 7, 0, 1, ⟨3, 0⟩, ⟨1, 0⟩⟩

/-- The channel after four calls `add(buf, 1)`, ..., `add(buf, 4)` on the
initialised zero buffer. -/
def afterFourPuts : Buffer :=
  ⟨Function.update (Function.update (Function.update (Function.update
      zeroBuffer.buf ⟨0, by decide⟩ 1) ⟨1, by decide⟩ 2) ⟨2, by decide⟩ 3) ⟨3, by decide⟩ 4,
    0, 4, ⟨0, 0⟩, ⟨4, 0⟩⟩

/-- The channel model after four calls of `add`, one call of `rem` and a fifth
call `add(buf, 5)` on the zero buffer: the fifth store has gone to
`first_occupied_slot`. -/
def overrunChannel : ChanModel :=
  ⟨⟨afterFourPuts.buf, 5, 0, ⟨0, 0⟩, ⟨4, 0⟩⟩, 0, 0, 0, 0, 0, 0, 5, 5, 1⟩

/-- The buffer after the schedule `fifthPut` on the initialised zero buffer. -/
def afterFifthPut : Buffer :=
  ⟨afterFourPuts.buf, 5, 0, ⟨0, 0⟩, ⟨4, 0⟩⟩

/-! ## Lock and unlock events of one call -/

/-- The mutexes of one channel: the mutex of `sem_producer`, the mutex of
`sem_consumer`, and `mut_buf`. -/
inductive Mutex where
  | producer_mutex
  | consumer_mutex
  | mut_buf
deriving DecidableEq

/-- A call of `pthread_mutex_lock` or of `pthread_mutex_unlock`. -/
inductive LockEvent where
  | lock (m : Mutex)
  | unlock (m : Mutex)
deriving DecidableEq

/-- The lock events of `sem_post` (lines 27 and 32) on the semaphore whose
mutex is `mutex`. -/
def sem_post_events (mutex : Mutex) : List LockEvent :=
  [LockEvent.lock mutex, LockEvent.unlock mutex]

/-- The lock events of `block` (lines 37-49) when `failed` iterations do not
return (lines 39 and 45) and the next one does (lines 39 and 42).  The events
of a call that never returns are, up to any point, those of a call with more
failed iterations. -/
def block_events (mutex : Mutex) : Nat → List LockEvent
  | 0 => [LockEvent.lock mutex, LockEvent.unlock mutex]
  | failed + 1 =>
    LockEvent.lock mutex :: LockEvent.unlock mutex :: block_events mutex failed

/-- The lock events of `sem_wait` (lines 52-62) entered in the state `sem`:
the entry section is left by the unlock of line 57 when the caller has to go to
`block`, which is followed by the lock of line 59 and the unlock of line 61,
and by the unlock of line 61 otherwise. -/
def sem_wait_events (mutex : Mutex) (sem : sem_t) (failed : Nat) : List LockEvent :=
  match sem_wait_entry sem with
  | (_, true) =>
    [LockEvent.lock mutex, LockEvent.unlock mutex] ++ block_events mutex failed ++
      [LockEvent.lock mutex, LockEvent.unlock mutex]
  | (_, false) => [LockEvent.lock mutex, LockEvent.unlock mutex]

/-- The lock events of one call of `add` (lines 79-98) that finds
`sem_producer` as it is in `b` and polls `failed` times in vain if it has to
wait. -/
def add_events (b : Buffer) (failed : Nat) : List LockEvent :=
  sem_wait_events Mutex.producer_mutex b.sem_producer failed ++
    [LockEvent.lock Mutex.mut_buf, LockEvent.unlock Mutex.mut_buf] ++
      sem_post_events Mutex.consumer_mutex

/-- The lock events of one call of `rem` (lines 101-121) that finds
`sem_consumer` as it is in `b` and polls `failed` times in vain if it has to
wait. -/
def rem_events (b : Buffer) (failed : Nat) : List LockEvent :=
  sem_wait_events Mutex.consumer_mutex b.sem_consumer failed ++
    [LockEvent.lock Mutex.mut_buf, LockEvent.unlock Mutex.mut_buf] ++
      sem_post_events Mutex.producer_mutex

/-- The mutexes held by the caller after one more event. -/
def holdStep (held : List Mutex) : LockEvent → List Mutex
  | LockEvent.lock m => m :: held
  | LockEvent.unlock m => held.erase m

/-- The mutexes held by the caller after a sequence of events, none being held
before. -/
def heldAfter (events : List LockEvent) : List Mutex :=
  events.foldl holdStep []

/-- A sequence of sections, each a lock of a mutex followed at once by the
unlock of that mutex. -/
def sections : List Mutex → List LockEvent
  | [] => []
  | m :: ms => LockEvent.lock m :: LockEvent.unlock m :: sections ms

/-- At most one mutex is held at any point of the events, no mutex is held
when one is locked, and none is held at the end. -/
def OneLockAtATime (events : List LockEvent) : Prop :=
  (∀ n, (heldAfter (events.take n)).length ≤ 1) ∧
    (∀ n m, events[n]? = some (LockEvent.lock m) → heldAfter (events.take n) = []) ∧
      heldAfter events = []

/-! ## Lemmas on the semaphore -/

theorem sem_post_count (s : sem_t) : (sem_post s).count = s.count + 1 := by
  unfold sem_post
  by_cases h : s.count + 1 ≤ 0 <;> simp [h]

theorem sem_post_pending (s : sem_t) :
    (sem_post s).pending_posts =
      if s.count + 1 ≤ 0 then s.pending_posts + 1 else s.pending_posts := by
  unfold sem_post
  by_cases h : s.count + 1 ≤ 0 <;> simp [h]

theorem sem_post_inv (s : sem_t) (w : Nat) (h : SemInv s w) : SemInv (sem_post s) w := by
  unfold SemInv at *
  rw [sem_post_count, sem_post_pending]
  by_cases hc : s.count + 1 ≤ 0
  · rw [if_pos hc]; omega
  · rw [if_neg hc]; omega

theorem sem_wait_entry_blocks (s : sem_t) (h : s.count ≤ 0) :
    sem_wait_entry s = (⟨s.count - 1, s.pending_posts⟩, true) := by
  have h1 : s.count - 1 < 0 := by omega
  simp [sem_wait_entry, h1]

theorem sem_wait_entry_passes (s : sem_t) (h : 1 ≤ s.count) :
    sem_wait_entry s = (⟨s.count - 1, s.pending_posts⟩, false) := by
  have h1 : ¬ s.count - 1 < 0 := by omega
  simp [sem_wait_entry, h1]

theorem block_iter_success (s : sem_t) (h : 0 ≤ s.count ∨ 0 < s.pending_posts) :
    block_iter s = (⟨s.count, s.pending_posts - 1⟩, true) := by
  simp [block_iter, h]

theorem block_iter_failure (s : sem_t) (h : ¬ (0 ≤ s.count ∨ 0 < s.pending_posts)) :
    block_iter s = (s, false) := by
  simp [block_iter, h]

theorem block_of_success (s : sem_t) (fuel : Nat)
    (h : 0 ≤ s.count ∨ 0 < s.pending_posts) :
    block (fuel + 1) s = some ⟨s.count, s.pending_posts - 1⟩ := by
  simp [block, block_iter_success s h]

theorem block_of_failure (s : sem_t) (fuel : Nat)
    (h : ¬ (0 ≤ s.count ∨ 0 < s.pending_posts)) : block fuel s = none := by
  induction fuel with
  | zero => rfl
  | succ n ih => simp [block, block_iter_failure s h, ih]

theorem semStep_inv (k : Int) (m m1 : SemModel) (a : SemAction)
    (hinv : SemModelInv k m) (h : semStep m a = some m1) : SemModelInv k m1 := by
  obtain ⟨⟨hp, hw⟩, hc, he⟩ := hinv
  cases a with
  | post =>
    simp only [semStep, Option.some.injEq] at h
    subst h
    refine ⟨sem_post_inv _ _ ⟨hp, hw⟩, ?_, he⟩
    simp only [sem_post_count]
    push_cast
    omega
  | enter =>
    by_cases hcount : m.sem.count ≤ 0
    · simp only [semStep, sem_wait_entry_blocks _ hcount, Option.some.injEq] at h
      subst h
      refine ⟨⟨hp, ?_⟩, ?_, ?_⟩ <;> simp only <;> push_cast <;> omega
    · have h1 : 1 ≤ m.sem.count := by omega
      simp only [semStep, sem_wait_entry_passes _ h1, Option.some.injEq] at h
      subst h
      refine ⟨⟨hp, ?_⟩, ?_, ?_⟩ <;> simp only <;> push_cast <;> omega
  | poll =>
    by_cases hwz : m.waiters = 0
    · simp [semStep, hwz] at h
    · by_cases hcond : 0 ≤ m.sem.count ∨ 0 < m.sem.pending_posts
      · simp only [semStep, hwz, if_false, block_iter_success _ hcond,
          Option.some.injEq] at h
        subst h
        have hw1 : ((m.waiters - 1 : Nat) : Int) = (m.waiters : Int) - 1 := by omega
        refine ⟨⟨?_, ?_⟩, ?_, ?_⟩ <;> simp only <;> omega
      · simp only [semStep, hwz, if_false, block_iter_failure _ hcond,
          Option.some.injEq] at h
        subst h
        exact ⟨⟨hp, hw⟩, hc, he⟩

theorem semRun_inv (k : Int) (acts : List SemAction) :
    ∀ m m1 : SemModel, SemModelInv k m → semRun m acts = some m1 → SemModelInv k m1 := by
  induction acts with
  | nil =>
    intro m m1 hinv h
    simp only [semRun, Option.some.injEq] at h
    subst h
    exact hinv
  | cons a acts ih =>
    intro m m1 hinv h
    simp only [semRun] at h
    cases hs : semStep m a with
    | none => simp [hs] at h
    | some m2 =>
      simp only [hs] at h
      exact ih m2 m1 (semStep_inv k m m2 a hinv hs) h

theorem semStart_inv (k : Int) (hk : 0 ≤ k) : SemModelInv k (semStart k) := by
  refine ⟨⟨?_, ?_⟩, ?_, ?_⟩ <;> simp [semStart, sem_init]
  omega

theorem semStep_count (m m1 : SemModel) (a : SemAction) (h : semStep m a = some m1) :
    m1.sem.count - (m1.posted : Int) + (m1.entered : Int) =
      m.sem.count - (m.posted : Int) + (m.entered : Int) := by
  cases a with
  | post =>
    simp only [semStep, Option.some.injEq] at h
    subst h
    simp only [sem_post_count]
    push_cast
    omega
  | enter =>
    by_cases hcount : m.sem.count ≤ 0
    · simp only [semStep, sem_wait_entry_blocks _ hcount, Option.some.injEq] at h
      subst h
      simp only
      push_cast
      omega
    · have h1 : 1 ≤ m.sem.count := by omega
      simp only [semStep, sem_wait_entry_passes _ h1, Option.some.injEq] at h
      subst h
      simp only
      push_cast
      omega
  | poll =>
    by_cases hwz : m.waiters = 0
    · simp [semStep, hwz] at h
    · by_cases hcond : 0 ≤ m.sem.count ∨ 0 < m.sem.pending_posts
      · simp only [semStep, hwz, if_false, block_iter_success _ hcond,
          Option.some.injEq] at h
        subst h
        rfl
      · simp only [semStep, hwz, if_false, block_iter_failure _ hcond,
          Option.some.injEq] at h
        subst h
        rfl

theorem semRun_count (acts : List SemAction) :
    ∀ m m1 : SemModel, semRun m acts = some m1 →
      m1.sem.count - (m1.posted : Int) + (m1.entered : Int) =
        m.sem.count - (m.posted : Int) + (m.entered : Int) := by
  induction acts with
  | nil =>
    intro m m1 h
    simp only [semRun, Option.some.injEq] at h
    subst h
    rfl
  | cons a acts ih =>
    intro m m1 h
    simp only [semRun] at h
    cases hs : semStep m a with
    | none => simp [hs] at h
    | some m2 =>
      simp only [hs] at h
      rw [ih m2 m1 h, semStep_count m m2 a hs]

/-! ## The claims on the semaphore -/

/-- C3 (semaphore safety): in the step model of a semaphore started by
`sem_init` with `k ≥ 0`, after any interleaving of `sem_post`, entry sections of
`sem_wait` and polls of `block`, the number of completed acquires is at most
`k` plus the number of `sem_post` steps. -/
theorem sem_acquired_le_credit (k : Int) (hk : 0 ≤ k) (acts : List SemAction)
    (m : SemModel) (h : semRun (semStart k) acts = some m) :
    (m.acquired : Int) ≤ k + (m.posted : Int) := by
  obtain ⟨⟨hp, hw⟩, hc, he⟩ := semRun_inv k acts _ m (semStart_inv k hk) h
  have he1 : (m.entered : Int) = (m.acquired : Int) + (m.waiters : Int) := by
    exact_mod_cast he
  omega

theorem sem_acquired_le_credit_witness :
    semRun (semStart 1)
        [SemAction.enter, SemAction.enter, SemAction.post, SemAction.poll] =
      some ⟨⟨0, 0⟩, 0, 2, 1, 2⟩ ∧ (((2 : Nat) : Int) ≤ 1 + ((1 : Nat) : Int)) :=
  ⟨by decide,
    sem_acquired_le_credit 1 (by decide)
      [SemAction.enter, SemAction.enter, SemAction.post, SemAction.poll]
      ⟨⟨0, 0⟩, 0, 2, 1, 2⟩ (by decide)⟩

/-- C5 (credit conservation): `sem_post` adds exactly one to `count`, the entry
section of `sem_wait` subtracts exactly one, a poll of `block` leaves `count`
alone, and so for every integer `k`, after any interleaving started from
`sem_init` with `k` in which `a` decrements and `r` posts have run,
`count = k + r - a`. -/
theorem sem_count_conservation :
    (∀ s : sem_t, (sem_post s).count = s.count + 1) ∧
    (∀ s : sem_t, (sem_wait_entry s).1.count = s.count - 1) ∧
    (∀ s : sem_t, (block_iter s).1.count = s.count) ∧
    (∀ (k : Int) (acts : List SemAction) (m : SemModel),
      semRun (semStart k) acts = some m →
        m.sem.count = k + (m.posted : Int) - (m.entered : Int)) := by
  refine ⟨sem_post_count, fun s => rfl, ?_, ?_⟩
  · intro s
    by_cases hcond : 0 ≤ s.count ∨ 0 < s.pending_posts
    · rw [block_iter_success s hcond]
    · rw [block_iter_failure s hcond]
  · intro k acts m h
    have hrun := semRun_count acts (semStart k) m h
    simp only [semStart, sem_init] at hrun
    push_cast at hrun
    omega

theorem sem_count_conservation_witness :
    (⟨-2, 2⟩ : sem_t).count = -3 + ((2 : Nat) : Int) - ((1 : Nat) : Int) :=
  sem_count_conservation.2.2.2 (-3)
    [SemAction.post, SemAction.enter, SemAction.post]
    ⟨⟨-2, 2⟩, 1, 1, 2, 0⟩ (by decide)

/-- C8, as the code has it (poll step of acquire): one locked iteration of
`block` succeeds iff `count ≥ 0` or `pending_posts > 0`; on failure the state is
unchanged; on success `count` is unchanged and `pending_posts` is decremented
by one, whichever of the two conditions held. -/
theorem block_iter_spec (s : sem_t) :
    ((block_iter s).2 = true ↔ (0 ≤ s.count ∨ 0 < s.pending_posts)) ∧
    ((block_iter s).2 = false → (block_iter s).1 = s) ∧
    ((block_iter s).2 = true →
      (block_iter s).1 = ⟨s.count, s.pending_posts - 1⟩) := by
  by_cases hcond : 0 ≤ s.count ∨ 0 < s.pending_posts
  · rw [block_iter_success s hcond]
    simp [hcond]
  · rw [block_iter_failure s hcond]
    simp [hcond]

theorem block_iter_spec_witness :
    (block_iter ⟨-1, 2⟩).1 = ⟨-1, 1⟩ ∧ (block_iter ⟨-1, 0⟩).1 = ⟨-1, 0⟩ :=
  ⟨(block_iter_spec ⟨-1, 2⟩).2.2 (by decide), (block_iter_spec ⟨-1, 0⟩).2.1 (by decide)⟩

/-- C8, as the claim has it, fails: at `count = 0`, `pending_posts = 0` the poll
succeeds because `count ≥ 0`, and it leaves `pending_posts` at `-1`, not at
`0`. -/
theorem block_iter_decrements_at_zero :
    (block_iter ⟨0, 0⟩).2 = true ∧ (block_iter ⟨0, 0⟩).1.pending_posts = -1 ∧
      (block_iter ⟨0, 0⟩).1.pending_posts ≠ 0 := by
  decide

/-- C9 (release): `sem_post` is total, adds one to `count`, adds one to
`pending_posts` exactly when the new count is `≤ 0`, and the semaphore has no
other component. -/
theorem sem_post_spec (s : sem_t) :
    sem_post s =
      ⟨s.count + 1, if s.count + 1 ≤ 0 then s.pending_posts + 1 else s.pending_posts⟩ := by
  unfold sem_post
  by_cases h : s.count + 1 ≤ 0 <;> simp [h]

/-- C10 (acquire fast path): with `count ≥ 1` the entry section of `sem_wait`
does not send the caller to `block` and `sem_wait` returns, whatever the bound
on polls (also none), with `count` one less and `pending_posts` unchanged; with
`count ≤ 0` the entry section leaves `count` one less and negative,
`pending_posts` unchanged, and the caller goes on to `block`. -/
theorem sem_wait_fast_path (s : sem_t) :
    (1 ≤ s.count →
      sem_wait_entry s = (⟨s.count - 1, s.pending_posts⟩, false) ∧
        ∀ fuel, sem_wait fuel s = some ⟨s.count - 1, s.pending_posts⟩) ∧
    (s.count ≤ 0 →
      sem_wait_entry s = (⟨s.count - 1, s.pending_posts⟩, true) ∧
        s.count - 1 < 0 ∧
          ∀ fuel, sem_wait fuel s = block fuel ⟨s.count - 1, s.pending_posts⟩) := by
  constructor
  · intro h
    refine ⟨sem_wait_entry_passes s h, fun fuel => ?_⟩
    simp [sem_wait, sem_wait_entry_passes s h]
  · intro h
    refine ⟨sem_wait_entry_blocks s h, by omega, fun fuel => ?_⟩
    simp [sem_wait, sem_wait_entry_blocks s h]

theorem sem_wait_fast_path_witness :
    sem_wait 0 ⟨1, 0⟩ = some ⟨1 - 1, 0⟩ ∧
      sem_wait_entry ⟨0, 0⟩ = (⟨0 - 1, 0⟩, true) :=
  ⟨((sem_wait_fast_path ⟨1, 0⟩).1 (by decide)).2 0,
    ((sem_wait_fast_path ⟨0, 0⟩).2 (by decide)).1⟩

/-! ## Lemmas on the buffer run by one caller -/

theorem advance_of_lt (c : Nat) (h : c < BUFFER_SIZE) : advance c = c + 1 := by
  unfold BUFFER_SIZE at h
  have h1 : (c + 1) % UINT_MOD = c + 1 := by
    apply Nat.mod_eq_of_lt
    unfold UINT_MOD
    omega
  have h2 : ¬ BUFFER_SIZE ≤ c := by unfold BUFFER_SIZE; omega
  simp [advance, atomic_fetch_add, h1, h2]

theorem advance_of_ge (c : Nat) (h : BUFFER_SIZE ≤ c) : advance c = 0 := by
  simp [advance, atomic_fetch_add, h]

/-- A semaphore with no pending post lets `sem_wait` return only when its
count is at least one. -/
theorem sem_wait_no_pending (fuel : Nat) (s s1 : sem_t) (hp : s.pending_posts = 0)
    (h : sem_wait fuel s = some s1) : 1 ≤ s.count ∧ s1 = ⟨s.count - 1, 0⟩ := by
  by_cases hc : s.count ≤ 0
  · have hfail : ¬ (0 ≤ (⟨s.count - 1, s.pending_posts⟩ : sem_t).count ∨
        0 < (⟨s.count - 1, s.pending_posts⟩ : sem_t).pending_posts) := by
      simp only [hp]
      omega
    simp [sem_wait, sem_wait_entry_blocks s hc, block_of_failure _ fuel hfail] at h
  · have h1 : 1 ≤ s.count := by omega
    simp only [sem_wait, sem_wait_entry_passes s h1, Option.some.injEq] at h
    exact ⟨h1, by rw [← h, hp]⟩

/-- What a completed `add` does to a channel at rest. -/
theorem add_ok (fuel : Nat) (b b1 : Buffer) (v : Int) (hinv : RestInv b)
    (h : add fuel b v = Except.ok b1) :
    1 ≤ b.sem_producer.count ∧
    ∃ hw : b.first_empty_slot < BUFFER_SIZE,
      b1 = ⟨Function.update b.buf ⟨b.first_empty_slot, hw⟩ v, b.first_occupied_slot,
        b.first_empty_slot + 1, ⟨b.sem_producer.count - 1, 0⟩,
        ⟨b.sem_consumer.count + 1, 0⟩⟩ := by
  obtain ⟨hpp, hcp, hp0, hc0, hsum, hdist⟩ := hinv
  unfold add at h
  cases hs : sem_wait fuel b.sem_producer with
  | none => simp [hs] at h
  | some sp =>
    obtain ⟨h1, hsp⟩ := sem_wait_no_pending fuel _ sp hpp hs
    refine ⟨h1, ?_⟩
    simp only [hs] at h
    by_cases hw : b.first_empty_slot < BUFFER_SIZE
    · refine ⟨hw, ?_⟩
      have hpost : sem_post b.sem_consumer = ⟨b.sem_consumer.count + 1, 0⟩ := by
        have hn : ¬ b.sem_consumer.count + 1 ≤ 0 := by omega
        simp [sem_post, hn, hcp]
      simp only [add_section, store, hw, dite_true, advance_of_lt _ hw,
        Except.ok.injEq] at h
      rw [← h, hpost, hsp]
    · simp [add_section, store, hw] at h

/-- What a completed `rem` does to a channel at rest. -/
theorem rem_ok (fuel : Nat) (b b1 : Buffer) (v : Int) (hinv : RestInv b)
    (h : rem fuel b = Except.ok (v, b1)) :
    1 ≤ b.sem_consumer.count ∧
    ∃ hr : b.first_occupied_slot < BUFFER_SIZE,
      v = b.buf ⟨b.first_occupied_slot, hr⟩ ∧
      b1 = ⟨b.buf, b.first_occupied_slot + 1, b.first_empty_slot,
        ⟨b.sem_producer.count + 1, 0⟩, ⟨b.sem_consumer.count - 1, 0⟩⟩ := by
  obtain ⟨hpp, hcp, hp0, hc0, hsum, hdist⟩ := hinv
  unfold rem at h
  cases hs : sem_wait fuel b.sem_consumer with
  | none => simp [hs] at h
  | some sc =>
    obtain ⟨h1, hsc⟩ := sem_wait_no_pending fuel _ sc hcp hs
    refine ⟨h1, ?_⟩
    simp only [hs] at h
    by_cases hr : b.first_occupied_slot < BUFFER_SIZE
    · refine ⟨hr, ?_⟩
      have hpost : sem_post b.sem_producer = ⟨b.sem_producer.count + 1, 0⟩ := by
        have hn : ¬ b.sem_producer.count + 1 ≤ 0 := by omega
        simp [sem_post, hn, hpp]
      simp only [rem_section, load, hr, dite_true, advance_of_lt _ hr,
        Except.ok.injEq, Prod.mk.injEq] at h
      obtain ⟨hv, hb⟩ := h
      exact ⟨hv.symm, by rw [← hb, hpost, hsc]⟩
    · simp [rem_section, load, hr] at h

theorem add_inv (fuel : Nat) (b b1 : Buffer) (v : Int) (hinv : RestInv b)
    (h : add fuel b v = Except.ok b1) :
    RestInv b1 ∧ b1.sem_consumer.count = b.sem_consumer.count + 1 := by
  obtain ⟨h1, hw, hb⟩ := add_ok fuel b b1 v hinv h
  obtain ⟨hpp, hcp, hp0, hc0, hsum, hdist⟩ := hinv
  subst hb
  refine ⟨⟨rfl, rfl, ?_, ?_, ?_, ?_⟩, rfl⟩ <;> simp only <;> push_cast <;> omega

theorem rem_inv (fuel : Nat) (b b1 : Buffer) (v : Int) (hinv : RestInv b)
    (h : rem fuel b = Except.ok (v, b1)) :
    RestInv b1 ∧ b1.sem_consumer.count = b.sem_consumer.count - 1 := by
  obtain ⟨h1, hr, _, hb⟩ := rem_ok fuel b b1 v hinv h
  obtain ⟨hpp, hcp, hp0, hc0, hsum, hdist⟩ := hinv
  subst hb
  refine ⟨⟨rfl, rfl, ?_, ?_, ?_, ?_⟩, rfl⟩ <;> simp only <;> push_cast <;> omega

theorem buffer_init_inv (b0 : Buffer) : RestInv (buffer_init b0) := by
  refine ⟨rfl, rfl, ?_, ?_, ?_, ?_⟩ <;> simp [buffer_init, sem_init, BUFFER_SIZE]

theorem exec_inv (fuel : Nat) (ops : List Op) :
    ∀ (b b1 : Buffer) (out : List Int), RestInv b →
      exec fuel b ops = Except.ok (b1, out) →
        RestInv b1 ∧
          b1.sem_consumer.count =
            b.sem_consumer.count + ((puts ops).length : Int) - (takes ops : Int) := by
  induction ops with
  | nil =>
    intro b b1 out hinv h
    simp only [exec, Except.ok.injEq, Prod.mk.injEq] at h
    obtain ⟨hb, _⟩ := h
    subst hb
    exact ⟨hinv, by simp [puts, takes]⟩
  | cons op ops ih =>
    intro b b1 out hinv h
    cases op with
    | put v =>
      simp only [exec] at h
      cases ha : add fuel b v with
      | error e => simp [ha] at h
      | ok b2 =>
        simp only [ha] at h
        obtain ⟨hinv2, hc2⟩ := add_inv fuel b b2 v hinv ha
        obtain ⟨hinv1, hc1⟩ := ih b2 b1 out hinv2 h
        refine ⟨hinv1, ?_⟩
        simp only [puts, takes, List.length_cons]
        push_cast
        omega
    | take =>
      simp only [exec] at h
      cases hr : rem fuel b with
      | error e => simp [hr] at h
      | ok p =>
        obtain ⟨v, b2⟩ := p
        simp only [hr] at h
        cases he : exec fuel b2 ops with
        | error e => simp [he] at h
        | ok q =>
          obtain ⟨b3, out3⟩ := q
          simp only [he, Except.ok.injEq, Prod.mk.injEq] at h
          obtain ⟨hb, _⟩ := h
          subst hb
          obtain ⟨hinv2, hc2⟩ := rem_inv fuel b b2 v hinv hr
          obtain ⟨hinv1, hc1⟩ := ih b2 b3 out3 hinv2 he
          refine ⟨hinv1, ?_⟩
          simp only [puts, takes]
          push_cast
          omega

/-! ## The claims on the buffer run by one caller -/

/-- C1 (FIFO per channel) fails on the code: the schedule of Scenario 1 returns
`1, 2, 3` in order, but `fivePuts` is a schedule in which no call has to block
either, and run from a freshly initialised channel its fifth `add` stores at
`buf[4]`, outside the array, because after four calls of `add` the write cursor
is `4` and not `0`; the run does not return `1, 2, 3, 4, 5`. -/
theorem fifo_fifth_put_out_of_range (fuel : Nat) (b0 : Buffer) :
    outputs (exec fuel (buffer_init b0) scenario1) = Except.ok [1, 2, 3] ∧
      NonBlocking fivePuts ∧
      outputs (exec fuel (buffer_init b0) fivePuts) = Except.error Fault.outOfRange ∧
      outputs (exec fuel (buffer_init b0) fivePuts) ≠ Except.ok [1, 2, 3, 4, 5] := by
  refine ⟨rfl, ?_, rfl, ?_⟩
  · unfold NonBlocking
    decide
  · intro h
    have h1 : outputs (exec fuel (buffer_init b0) fivePuts) =
        Except.error Fault.outOfRange := rfl
    rw [h1] at h
    cases h

/-- C2 (cursor bounds) fails on the code: after four completed calls of `add`
on a freshly initialised channel, none of which blocks, `first_empty_slot` is
`BUFFER_SIZE`, which is not below `BUFFER_SIZE`, and once a `rem` has made room
the next `add` indexes the array out of range. -/
theorem write_cursor_reaches_buffer_size (fuel : Nat) (b0 : Buffer) :
    NonBlocking fourPuts ∧
      (finalBuffer (exec fuel (buffer_init b0) fourPuts)).map
          (fun b => b.first_empty_slot) = some BUFFER_SIZE ∧
      ¬ BUFFER_SIZE < BUFFER_SIZE ∧
      NonBlocking fifthPut ∧
      finalBuffer (exec fuel (buffer_init b0) fifthPut) = none ∧
      outputs (exec fuel (buffer_init b0) fifthPut) = Except.error Fault.outOfRange := by
  refine ⟨?_, rfl, by decide, ?_, rfl, rfl⟩
  · unfold NonBlocking
    decide
  · unfold NonBlocking
    decide

/-- C7, as the code has it (cursor distance and fill level): after any sequence
of completed calls of `add` and `rem` on a freshly initialised channel (each
call returns: it neither blocks nor indexes the array out of range), the count
of `sem_consumer` is congruent modulo `BUFFER_SIZE` to
`first_empty_slot - first_occupied_slot`, and it equals
`(first_empty_slot - first_occupied_slot) mod BUFFER_SIZE` whenever the channel
is not full. -/
theorem fill_level_congruent_cursor_distance (fuel : Nat) (b0 b : Buffer)
    (ops : List Op) (out : List Int)
    (h : exec fuel (buffer_init b0) ops = Except.ok (b, out)) :
    b.sem_consumer.count % (BUFFER_SIZE : Int) =
        ((b.first_empty_slot : Int) - (b.first_occupied_slot : Int)) % (BUFFER_SIZE : Int) ∧
      (b.sem_consumer.count < (BUFFER_SIZE : Int) →
        b.sem_consumer.count =
          ((b.first_empty_slot : Int) - (b.first_occupied_slot : Int)) %
            (BUFFER_SIZE : Int)) := by
  obtain ⟨⟨_, _, _, hc0, _, hdist⟩, _⟩ :=
    exec_inv fuel ops (buffer_init b0) b out (buffer_init_inv b0) h
  refine ⟨by rw [hdist], fun hlt => ?_⟩
  rw [← hdist]
  exact (Int.emod_eq_of_lt hc0 hlt).symm

theorem fill_level_congruent_cursor_distance_witness :
    (3 : Int) % (BUFFER_SIZE : Int) =
        (((3 : Nat) : Int) - ((0 : Nat) : Int)) % (BUFFER_SIZE : Int) ∧
      ((3 : Int) < (BUFFER_SIZE : Int) →
        (3 : Int) = (((3 : Nat) : Int) - ((0 : Nat) : Int)) % (BUFFER_SIZE : Int)) :=
  fill_level_congruent_cursor_distance 0 zeroBuffer
    ⟨Function.update (Function.update (Function.update zeroBuffer.buf
        ⟨0, by decide⟩ 1) ⟨1, by decide⟩ 2) ⟨2, by decide⟩ 3, 0, 3, ⟨1, 0⟩, ⟨3, 0⟩⟩
    [Op.put 1, Op.put 2, Op.put 3] [] rfl

/-- C7, as the claim has it, fails: after four completed calls of `add` on a
freshly initialised channel four slots are filled, while
`(first_empty_slot - first_occupied_slot) mod BUFFER_SIZE` is `0`. -/
theorem fill_level_differs_when_full :
    (finalBuffer (exec 0 (buffer_init zeroBuffer) fourPuts)).map
        (fun b => b.sem_consumer.count) = some 4 ∧
      (finalBuffer (exec 0 (buffer_init zeroBuffer) fourPuts)).map
        (fun b => ((b.first_empty_slot : Int) - (b.first_occupied_slot : Int)) %
          (BUFFER_SIZE : Int)) = some 0 := by
  decide

/-! ## FIFO while the cursors stay inside the array -/

theorem add_succeeds (fuel : Nat) (b : Buffer) (v : Int)
    (hpp : b.sem_producer.pending_posts = 0) (hcp : b.sem_consumer.pending_posts = 0)
    (hc0 : 0 ≤ b.sem_consumer.count) (h1 : 1 ≤ b.sem_producer.count)
    (hw : b.first_empty_slot < BUFFER_SIZE) :
    add fuel b v =
      Except.ok ⟨Function.update b.buf ⟨b.first_empty_slot, hw⟩ v, b.first_occupied_slot,
        b.first_empty_slot + 1, ⟨b.sem_producer.count - 1, 0⟩,
        ⟨b.sem_consumer.count + 1, 0⟩⟩ := by
  have hn : ¬ b.sem_consumer.count + 1 ≤ 0 := by omega
  simp [add, sem_wait, sem_wait_entry_passes _ h1, add_section, store, hw,
    advance_of_lt _ hw, sem_post, hn, hpp, hcp]

theorem rem_succeeds (fuel : Nat) (b : Buffer)
    (hpp : b.sem_producer.pending_posts = 0) (hcp : b.sem_consumer.pending_posts = 0)
    (hp0 : 0 ≤ b.sem_producer.count) (h1 : 1 ≤ b.sem_consumer.count)
    (hr : b.first_occupied_slot < BUFFER_SIZE) :
    rem fuel b =
      Except.ok (b.buf ⟨b.first_occupied_slot, hr⟩,
        ⟨b.buf, b.first_occupied_slot + 1, b.first_empty_slot,
          ⟨b.sem_producer.count + 1, 0⟩, ⟨b.sem_consumer.count - 1, 0⟩⟩) := by
  have hn : ¬ b.sem_producer.count + 1 ≤ 0 := by omega
  simp [rem, sem_wait, sem_wait_entry_passes _ h1, rem_section, load, hr,
    advance_of_lt _ hr, sem_post, hn, hpp, hcp]

theorem exec_fifo (fuel : Nat) (ops : List Op) :
    ∀ (b : Buffer) (done : List Int) (t : Nat),
      RestInv b → b.first_empty_slot = done.length → b.first_occupied_slot = t →
      (∀ i (h : i < BUFFER_SIZE) (hi : i < done.length), b.buf ⟨i, h⟩ = done[i]) →
      (∀ n, n ≤ ops.length →
        t + takes (ops.take n) ≤ done.length + (puts (ops.take n)).length) →
      done.length + (puts ops).length ≤ BUFFER_SIZE →
      outputs (exec fuel b ops) =
        Except.ok (((done ++ puts ops).drop t).take (takes ops)) := by
  induction ops with
  | nil =>
    intro b done t _ _ _ _ _ _
    simp [exec, outputs, takes]
  | cons op ops ih =>
    intro b done t hinv hw hr hbuf hnb hcap
    obtain ⟨hpp, hcp, hp0, hc0, hsum, hdist⟩ := hinv
    cases op with
    | put v =>
      simp only [puts, List.length_cons] at hcap
      have hwlt : b.first_empty_slot < BUFFER_SIZE := by omega
      have ht : t ≤ done.length := by
        have := hnb 0 (Nat.zero_le _)
        simpa [takes, puts] using this
      have h1 : 1 ≤ b.sem_producer.count := by
        rw [hw, hr] at hdist
        have : (BUFFER_SIZE : Int) = 4 := rfl
        unfold BUFFER_SIZE at hcap
        omega
      simp only [exec, add_succeeds fuel b v hpp hcp hc0 h1 hwlt]
      have hstep := ih
        ⟨Function.update b.buf ⟨b.first_empty_slot, hwlt⟩ v, b.first_occupied_slot,
          b.first_empty_slot + 1, ⟨b.sem_producer.count - 1, 0⟩,
          ⟨b.sem_consumer.count + 1, 0⟩⟩ (done ++ [v]) t
        (by
          refine ⟨rfl, rfl, ?_, ?_, ?_, ?_⟩ <;> simp only <;> push_cast <;> omega)
        (by simp [hw]) hr
        (by
          intro i h hi
          simp only [List.length_append, List.length_singleton] at hi
          by_cases hlt : i < done.length
          · have hne : (⟨i, h⟩ : Fin BUFFER_SIZE) ≠ ⟨b.first_empty_slot, hwlt⟩ := by
              intro heq
              have := congrArg Fin.val heq
              simp only at this
              omega
            simp only
            rw [Function.update_noteq hne, List.getElem_append_left hlt]
            exact hbuf i h hlt
          · have hieq : i = done.length := by omega
            subst hieq
            have heq : (⟨done.length, h⟩ : Fin BUFFER_SIZE) =
                ⟨b.first_empty_slot, hwlt⟩ := by
              apply Fin.ext
              simp only
              omega
            simp only
            rw [heq, Function.update_same]
            simp)
        (by
          intro n hn
          have := hnb (n + 1) (by simp only [List.length_cons]; omega)
          simp only [List.take_succ_cons, takes, puts, List.length_cons] at this
          simp only [List.length_append, List.length_singleton]
          omega)
        (by
          simp only [List.length_append, List.length_singleton]
          omega)
      rw [hstep]
      simp [puts, takes]
    | take =>
      simp only [puts] at hcap
      have ht : t + 1 ≤ done.length := by
        have := hnb 1 (by simp only [List.length_cons]; omega)
        simpa [takes, puts] using this
      have hrlt : b.first_occupied_slot < BUFFER_SIZE := by omega
      have h1 : 1 ≤ b.sem_consumer.count := by
        rw [hw, hr] at hdist
        omega
      simp only [exec, rem_succeeds fuel b hpp hcp hp0 h1 hrlt]
      have hstep := ih
        ⟨b.buf, b.first_occupied_slot + 1, b.first_empty_slot,
          ⟨b.sem_producer.count + 1, 0⟩, ⟨b.sem_consumer.count - 1, 0⟩⟩ done (t + 1)
        (by
          refine ⟨rfl, rfl, ?_, ?_, ?_, ?_⟩ <;> simp only <;> push_cast <;> omega)
        hw (by simp [hr]) hbuf
        (by
          intro n hn
          have := hnb (n + 1) (by simp only [List.length_cons]; omega)
          simp only [List.take_succ_cons, takes, puts] at this
          omega)
        hcap
      cases he : exec fuel
        ⟨b.buf, b.first_occupied_slot + 1, b.first_empty_slot,
          ⟨b.sem_producer.count + 1, 0⟩, ⟨b.sem_consumer.count - 1, 0⟩⟩ ops with
      | error e => simp [he, outputs] at hstep
      | ok q =>
        obtain ⟨b3, out3⟩ := q
        simp only [he, outputs, Except.ok.injEq] at hstep
        have hlen : t < (done ++ puts ops).length := by
          simp only [List.length_append]
          omega
        have hval : b.buf ⟨b.first_occupied_slot, hrlt⟩ = (done ++ puts ops)[t] := by
          have hb := hbuf b.first_occupied_slot hrlt (by omega)
          rw [hb, List.getElem_append_left (by omega)]
          simp [hr]
        simp only [outputs, takes, puts, hstep, hval]
        rw [List.drop_eq_getElem_cons hlen, List.take_succ_cons]

/-- While the cursors stay inside the array the channel is FIFO: a schedule in
which no call has to block and which puts at most `BUFFER_SIZE` values, run
from a freshly initialised channel, returns, and its `rem` calls return the
values of its `add` calls in order. -/
theorem fifo_within_capacity (fuel : Nat) (b0 : Buffer) (ops : List Op)
    (hnb : NonBlocking ops) (hcap : (puts ops).length ≤ BUFFER_SIZE) :
    outputs (exec fuel (buffer_init b0) ops) =
      Except.ok ((puts ops).take (takes ops)) := by
  have h := exec_fifo fuel ops (buffer_init b0) [] 0 (buffer_init_inv b0) rfl rfl
    (by intro i h hi; simp at hi)
    (by
      intro n hn
      have := (hnb n hn).1
      simpa using this)
    (by simpa using hcap)
  simpa using h

/-! ## More lemmas on the semaphore model -/

theorem semStep_pending (k : Int) (m m1 : SemModel) (a : SemAction)
    (hinv : SemPendingInv k m) (h : semStep m a = some m1) : SemPendingInv k m1 := by
  obtain ⟨hp, hw⟩ := hinv
  cases a with
  | post =>
    simp only [semStep, Option.some.injEq] at h
    subst h
    unfold SemPendingInv
    simp only [sem_post_count, sem_post_pending]
    by_cases hc : m.sem.count + 1 ≤ 0
    · rw [if_pos hc]
      omega
    · rw [if_neg hc]
      omega
  | enter =>
    by_cases hcount : m.sem.count ≤ 0
    · simp only [semStep, sem_wait_entry_blocks _ hcount, Option.some.injEq] at h
      subst h
      refine ⟨hp, ?_⟩
      simp only
      push_cast
      omega
    · have h1 : 1 ≤ m.sem.count := by omega
      simp only [semStep, sem_wait_entry_passes _ h1, Option.some.injEq] at h
      subst h
      refine ⟨hp, ?_⟩
      simp only
      omega
  | poll =>
    by_cases hwz : m.waiters = 0
    · simp [semStep, hwz] at h
    · by_cases hcond : 0 ≤ m.sem.count ∨ 0 < m.sem.pending_posts
      · simp only [semStep, hwz, if_false, block_iter_success _ hcond,
          Option.some.injEq] at h
        subst h
        have hw1 : ((m.waiters - 1 : Nat) : Int) = (m.waiters : Int) - 1 := by omega
        refine ⟨?_, ?_⟩ <;> simp only <;> omega
      · simp only [semStep, hwz, if_false, block_iter_failure _ hcond,
          Option.some.injEq] at h
        subst h
        exact ⟨hp, hw⟩

theorem semRun_pending (k : Int) (acts : List SemAction) :
    ∀ m m1 : SemModel, SemPendingInv k m → semRun m acts = some m1 →
      SemPendingInv k m1 := by
  induction acts with
  | nil =>
    intro m m1 hinv h
    simp only [semRun, Option.some.injEq] at h
    subst h
    exact hinv
  | cons a acts ih =>
    intro m m1 hinv h
    simp only [semRun] at h
    cases hs : semStep m a with
    | none => simp [hs] at h
    | some m2 =>
      simp only [hs] at h
      exact ih m2 m1 (semStep_pending k m m2 a hinv hs) h

theorem semStart_pending (k : Int) : SemPendingInv k (semStart k) := by
  refine ⟨?_, ?_⟩ <;> simp [semStart, sem_init]

/-! ## More claims on the semaphore -/

/-- C12 (pending posts are never negative): in the step model of the semaphore,
where a poll of `block` is taken only by a caller whose `sem_wait` decrement
produced a negative count, for every integer `k` and every interleaving
started from `sem_init` with `k`, `pending_posts ≥ 0` in the state reached. -/
theorem pending_posts_nonneg (k : Int) (acts : List SemAction) (m : SemModel)
    (h : semRun (semStart k) acts = some m) : 0 ≤ m.sem.pending_posts :=
  (semRun_pending k acts _ m (semStart_pending k) h).1

theorem pending_posts_nonneg_witness :
    0 ≤ (⟨⟨-1, 0⟩, 0, 1, 1, 1⟩ : SemModel).sem.pending_posts :=
  pending_posts_nonneg (-1) [SemAction.post, SemAction.enter, SemAction.poll]
    ⟨⟨-1, 0⟩, 0, 1, 1, 1⟩ (by decide)

/-- C13 (negative count means waiters): in the step model of the semaphore
started from `sem_init` with `k ≥ 0`, in every reachable state with `count < 0`
at least one caller is waiting, and the number of waiters less the pending
posts is at most `-count`. -/
theorem negative_count_has_waiters (k : Int) (hk : 0 ≤ k) (acts : List SemAction)
    (m : SemModel) (h : semRun (semStart k) acts = some m) (hneg : m.sem.count < 0) :
    1 ≤ m.waiters ∧ (m.waiters : Int) - m.sem.pending_posts ≤ -m.sem.count := by
  obtain ⟨⟨hp, hw⟩, _, _⟩ := semRun_inv k acts _ m (semStart_inv k hk) h
  constructor <;> omega

theorem negative_count_has_waiters_witness :
    1 ≤ (⟨⟨-1, 1⟩, 2, 2, 1, 0⟩ : SemModel).waiters ∧
      ((⟨⟨-1, 1⟩, 2, 2, 1, 0⟩ : SemModel).waiters : Int) -
          (⟨⟨-1, 1⟩, 2, 2, 1, 0⟩ : SemModel).sem.pending_posts ≤
        -(⟨⟨-1, 1⟩, 2, 2, 1, 0⟩ : SemModel).sem.count :=
  negative_count_has_waiters 0 (by decide)
    [SemAction.enter, SemAction.enter, SemAction.post]
    ⟨⟨-1, 1⟩, 2, 2, 1, 0⟩ (by decide) (by decide)

/-- C14 (no lost wake-up): in the step model of the semaphore started from
`sem_init` with `k ≥ 0`, in every reachable state where a caller is waiting in
`block` and the poll condition `count ≥ 0 ∨ pending_posts > 0` is false, the
number of completed acquires is exactly `k` plus the number of posts; and
whenever a caller is waiting and fewer than `k` plus the number of posts
acquires have completed, the next poll by a waiter succeeds. -/
theorem no_lost_wakeup (k : Int) (hk : 0 ≤ k) (acts : List SemAction)
    (m : SemModel) (h : semRun (semStart k) acts = some m) (hwait : 1 ≤ m.waiters) :
    (¬ (0 ≤ m.sem.count ∨ 0 < m.sem.pending_posts) →
      (m.acquired : Int) = k + (m.posted : Int)) ∧
    ((m.acquired : Int) < k + (m.posted : Int) →
      (block_iter m.sem).2 = true ∧
        semStep m SemAction.poll =
          some { m with sem := ⟨m.sem.count, m.sem.pending_posts - 1⟩
                        waiters := m.waiters - 1
                        acquired := m.acquired + 1 }) := by
  obtain ⟨⟨hp, hw⟩, hc, he⟩ := semRun_inv k acts _ m (semStart_inv k hk) h
  have he1 : (m.entered : Int) = (m.acquired : Int) + (m.waiters : Int) := by
    exact_mod_cast he
  constructor
  · intro hcond
    omega
  · intro hlt
    have hcond : 0 ≤ m.sem.count ∨ 0 < m.sem.pending_posts := by omega
    have hwz : m.waiters ≠ 0 := by omega
    refine ⟨by rw [block_iter_success _ hcond], ?_⟩
    simp only [semStep, hwz, if_false, block_iter_success _ hcond]

theorem no_lost_wakeup_witness :
    (((0 : Nat) : Int) = 0 + ((0 : Nat) : Int)) ∧
      semStep ⟨⟨0, 1⟩, 1, 1, 1, 0⟩ SemAction.poll = some ⟨⟨0, 1 - 1⟩, 1 - 1, 1, 1, 0 + 1⟩ :=
  ⟨(no_lost_wakeup 0 (by decide) [SemAction.enter] ⟨⟨-1, 0⟩, 1, 1, 0, 0⟩
      (by decide) (by decide)).1 (by decide),
    ((no_lost_wakeup 0 (by decide) [SemAction.enter, SemAction.post]
      ⟨⟨0, 1⟩, 1, 1, 1, 0⟩ (by decide) (by decide)).2 (by decide)).2⟩

/-! ## More lemmas on the buffer run by one caller -/

theorem add_frame (fuel : Nat) (b b1 : Buffer) (v : Int)
    (h : add fuel b v = Except.ok b1) :
    ∃ hw : b.first_empty_slot < BUFFER_SIZE,
      b1.buf = Function.update b.buf ⟨b.first_empty_slot, hw⟩ v ∧
        b1.first_occupied_slot = b.first_occupied_slot ∧
          b1.first_empty_slot = advance b.first_empty_slot := by
  unfold add at h
  cases hs : sem_wait fuel b.sem_producer with
  | none => simp [hs] at h
  | some sp =>
    simp only [hs] at h
    by_cases hw : b.first_empty_slot < BUFFER_SIZE
    · simp only [add_section, store, hw, dite_true, Except.ok.injEq] at h
      subst h
      exact ⟨hw, rfl, rfl, rfl⟩
    · simp [add_section, store, hw] at h

theorem rem_frame (fuel : Nat) (b b1 : Buffer) (v : Int)
    (h : rem fuel b = Except.ok (v, b1)) :
    ∃ hr : b.first_occupied_slot < BUFFER_SIZE,
      v = b.buf ⟨b.first_occupied_slot, hr⟩ ∧ b1.buf = b.buf ∧
        b1.first_empty_slot = b.first_empty_slot ∧
          b1.first_occupied_slot = advance b.first_occupied_slot := by
  unfold rem at h
  cases hs : sem_wait fuel b.sem_consumer with
  | none => simp [hs] at h
  | some sc =>
    simp only [hs] at h
    by_cases hr : b.first_occupied_slot < BUFFER_SIZE
    · simp only [rem_section, load, hr, dite_true, Except.ok.injEq,
        Prod.mk.injEq] at h
      obtain ⟨hv, hb⟩ := h
      subst hb
      exact ⟨hr, hv.symm, rfl, rfl, rfl⟩
    · simp [rem_section, load, hr] at h

theorem add_returns (fuel : Nat) (b : Buffer) (v : Int)
    (h1 : 1 ≤ b.sem_producer.count) (hw : b.first_empty_slot < BUFFER_SIZE) :
    ∃ b1, add fuel b v = Except.ok b1 := by
  simp [add, sem_wait, sem_wait_entry_passes _ h1, add_section, store, hw]

theorem rem_returns (fuel : Nat) (b : Buffer)
    (h1 : 1 ≤ b.sem_consumer.count) (hr : b.first_occupied_slot < BUFFER_SIZE) :
    ∃ v b1, rem fuel b = Except.ok (v, b1) := by
  simp [rem, sem_wait, sem_wait_entry_passes _ h1, rem_section, load, hr]

theorem exec_cursors (fuel : Nat) (ops : List Op) :
    ∀ (b b1 : Buffer) (out : List Int), RestInv b →
      exec fuel b ops = Except.ok (b1, out) →
        b1.first_empty_slot = b.first_empty_slot + (puts ops).length ∧
          b1.first_occupied_slot = b.first_occupied_slot + takes ops := by
  induction ops with
  | nil =>
    intro b b1 out _ h
    simp only [exec, Except.ok.injEq, Prod.mk.injEq] at h
    obtain ⟨hb, _⟩ := h
    subst hb
    simp [puts, takes]
  | cons op ops ih =>
    intro b b1 out hinv h
    cases op with
    | put v =>
      simp only [exec] at h
      cases ha : add fuel b v with
      | error e => simp [ha] at h
      | ok b2 =>
        simp only [ha] at h
        obtain ⟨hinv2, _⟩ := add_inv fuel b b2 v hinv ha
        obtain ⟨_, hw, hb2⟩ := add_ok fuel b b2 v hinv ha
        obtain ⟨hw1, hr1⟩ := ih b2 b1 out hinv2 h
        rw [hb2] at hw1 hr1
        simp only at hw1 hr1
        simp only [puts, takes, List.length_cons]
        omega
    | take =>
      simp only [exec] at h
      cases hr : rem fuel b with
      | error e => simp [hr] at h
      | ok p =>
        obtain ⟨v, b2⟩ := p
        simp only [hr] at h
        cases he : exec fuel b2 ops with
        | error e => simp [he] at h
        | ok q =>
          obtain ⟨b3, out3⟩ := q
          simp only [he, Except.ok.injEq, Prod.mk.injEq] at h
          obtain ⟨hb, _⟩ := h
          subst hb
          obtain ⟨hinv2, _⟩ := rem_inv fuel b b2 v hinv hr
          obtain ⟨_, hrr, _, hb2⟩ := rem_ok fuel b b2 v hinv hr
          obtain ⟨hw1, hr1⟩ := ih b2 b3 out3 hinv2 he
          rw [hb2] at hw1 hr1
          simp only at hw1 hr1
          simp only [puts, takes]
          omega

/-- C11 (cursor advance modulo `BUFFER_SIZE`) fails on the code: from the write
cursor `3`, reached by three calls of `add`, a fourth call of `add` that does
not block leaves `first_empty_slot = 4` where `(3 + 1) mod BUFFER_SIZE = 0`; from
the read cursor `3`, reached by four puts and three takes, a fourth call of
`rem` that does not block leaves `first_occupied_slot = 4`. -/
theorem cursor_advance_misses_wrap (fuel : Nat) (b0 : Buffer) :
    finalWriteCursor (exec fuel (buffer_init b0) threePuts) = some 3 ∧
      finalWriteCursor (exec fuel (buffer_init b0) fourPuts) = some 4 ∧
      finalReadCursor (exec fuel (buffer_init b0) fourPutsThreeTakes) = some 3 ∧
      finalReadCursor (exec fuel (buffer_init b0) fourPutsFourTakes) = some 4 ∧
      advance 3 = 4 ∧ (3 + 1) % BUFFER_SIZE = 0 :=
  ⟨rfl, rfl, rfl, rfl, by decide, by decide⟩

/-- C16 (frame of put and take): in every channel state with
`first_empty_slot < BUFFER_SIZE` a call of `add` that does not block returns,
and a call of `add` that returns has set `buf[first_empty_slot]` to its value
and left every other slot and `first_occupied_slot` unchanged; in every channel
state with `first_occupied_slot < BUFFER_SIZE` a call of `rem` that does not
block returns, and a call of `rem` that returns has returned
`buf[first_occupied_slot]` and left every slot and `first_empty_slot`
unchanged. -/
theorem add_rem_frame (fuel : Nat) (b : Buffer) (val : Int) :
    (∀ hw : b.first_empty_slot < BUFFER_SIZE,
      (1 ≤ b.sem_producer.count → ∃ b1, add fuel b val = Except.ok b1) ∧
      (∀ b1, add fuel b val = Except.ok b1 →
        b1.buf ⟨b.first_empty_slot, hw⟩ = val ∧
          (∀ i : Fin BUFFER_SIZE, i ≠ ⟨b.first_empty_slot, hw⟩ → b1.buf i = b.buf i) ∧
            b1.first_occupied_slot = b.first_occupied_slot)) ∧
    (∀ hr : b.first_occupied_slot < BUFFER_SIZE,
      (1 ≤ b.sem_consumer.count → ∃ v b1, rem fuel b = Except.ok (v, b1)) ∧
      (∀ v b1, rem fuel b = Except.ok (v, b1) →
        v = b.buf ⟨b.first_occupied_slot, hr⟩ ∧
          (∀ i : Fin BUFFER_SIZE, b1.buf i = b.buf i) ∧
            b1.first_empty_slot = b.first_empty_slot)) := by
  constructor
  · intro hw
    refine ⟨fun h1 => add_returns fuel b val h1 hw, fun b1 h => ?_⟩
    obtain ⟨_, hbuf, hocc, _⟩ := add_frame fuel b b1 val h
    refine ⟨?_, ?_, hocc⟩
    · rw [hbuf, Function.update_same]
    · intro i hi
      rw [hbuf, Function.update_noteq hi]
  · intro hr
    refine ⟨fun h1 => rem_returns fuel b h1 hr, fun v b1 h => ?_⟩
    obtain ⟨_, hv, hbuf, hemp, _⟩ := rem_frame fuel b b1 v h
    exact ⟨hv, fun i => by rw [hbuf], hemp⟩

theorem add_rem_frame_witness :
    ((afterOnePut.buf ⟨0, by decide⟩ = 7 ∧
        (∀ i : Fin BUFFER_SIZE, i ≠ ⟨0, by decide⟩ →
          afterOnePut.buf i = (buffer_init zeroBuffer).buf i) ∧
        afterOnePut.first_occupied_slot = (buffer_init zeroBuffer).first_occupied_slot)) ∧
      (7 : Int) = afterOnePut.buf ⟨0, by decide⟩ :=
  ⟨((add_rem_frame 0 (buffer_init zeroBuffer) 7).1 (by decide)).2 afterOnePut rfl,
    (((add_rem_frame 0 afterOnePut 0).2 (by decide)).2 7
      ⟨afterOnePut.buf, 1, 1, ⟨4, 0⟩, ⟨0, 0⟩⟩ rfl).1⟩

/-! ## Lemmas on lock events -/

theorem heldAfter_section (m : Mutex) (events : List LockEvent) :
    heldAfter (LockEvent.lock m :: LockEvent.unlock m :: events) = heldAfter events := by
  simp [heldAfter, holdStep]

theorem sections_append (ms ns : List Mutex) :
    sections (ms ++ ns) = sections ms ++ sections ns := by
  induction ms with
  | nil => rfl
  | cons m ms ih => simp [sections, ih]

theorem sections_held (ms : List Mutex) :
    ∀ n, (heldAfter ((sections ms).take n)).length ≤ 1 ∧
      (∀ m, (sections ms)[n]? = some (LockEvent.lock m) →
        heldAfter ((sections ms).take n) = []) := by
  induction ms with
  | nil =>
    intro n
    simp [sections, heldAfter]
  | cons m0 ms ih =>
    intro n
    match n with
    | 0 => simp [sections, heldAfter]
    | 1 => simp [sections, heldAfter, holdStep]
    | k + 2 =>
      simp only [sections, List.take_succ_cons, heldAfter_section,
        List.getElem?_cons_succ]
      exact ih k

theorem sections_balanced (ms : List Mutex) : heldAfter (sections ms) = [] := by
  induction ms with
  | nil => rfl
  | cons m ms ih => rw [sections, heldAfter_section, ih]

theorem sections_one_lock (ms : List Mutex) : OneLockAtATime (sections ms) :=
  ⟨fun n => (sections_held ms n).1, fun n m => (sections_held ms n).2 m,
    sections_balanced ms⟩

theorem block_events_sections (mutex : Mutex) (failed : Nat) :
    block_events mutex failed = sections (List.replicate (failed + 1) mutex) := by
  induction failed with
  | zero => rfl
  | succ n ih =>
    rw [block_events, ih]
    rfl

theorem sem_wait_events_sections (mutex : Mutex) (sem : sem_t) (failed : Nat) :
    ∃ ms, sem_wait_events mutex sem failed = sections ms := by
  by_cases hc : sem.count ≤ 0
  · refine ⟨[mutex] ++ List.replicate (failed + 1) mutex ++ [mutex], ?_⟩
    simp only [sem_wait_events, sem_wait_entry_blocks sem hc, block_events_sections,
      sections_append]
    rfl
  · have h1 : 1 ≤ sem.count := by omega
    refine ⟨[mutex], ?_⟩
    simp only [sem_wait_events, sem_wait_entry_passes sem h1]
    rfl

/-! ## The claim on lock events -/

/-- C15 (no nested locking): in the lock and unlock events of any single call
of `add` or of `rem`, whatever the state of the semaphore it finds and however
often it polls in `block`, at most one mutex is held at any point, no mutex is
held when a mutex is locked (so the mutex of the semaphore is released before
`block` is entered and before `mut_buf` is taken, and `mut_buf` is released
before `sem_post` is called), and no mutex is held when the call returns. -/
theorem no_nested_locking (b : Buffer) (failed : Nat) :
    OneLockAtATime (add_events b failed) ∧ OneLockAtATime (rem_events b failed) := by
  constructor
  · obtain ⟨ms, hms⟩ := sem_wait_events_sections Mutex.producer_mutex b.sem_producer failed
    have h : add_events b failed =
        sections (ms ++ [Mutex.mut_buf] ++ [Mutex.consumer_mutex]) := by
      simp only [add_events, hms, sections_append]
      rfl
    rw [h]
    exact sections_one_lock _
  · obtain ⟨ms, hms⟩ := sem_wait_events_sections Mutex.consumer_mutex b.sem_consumer failed
    have h : rem_events b failed =
        sections (ms ++ [Mutex.mut_buf] ++ [Mutex.producer_mutex]) := by
      simp only [rem_events, hms, sections_append]
      rfl
    rw [h]
    exact sections_one_lock _

/-! ## Lemmas on the accesses at the layout of `struct Buffer` -/

theorem advance_le (c : Nat) : advance c ≤ BUFFER_SIZE := by
  by_cases h : c < BUFFER_SIZE
  · rw [advance_of_lt c h]
    omega
  · rw [advance_of_ge c (by omega)]
    omega

theorem store_word_inside (M : FarMemory) (b : Buffer) (i : Nat) (val : Int)
    (h : i < BUFFER_SIZE) :
    store_word M b i val = { b with buf := Function.update b.buf ⟨i, h⟩ val } := by
  simp [store_word, h]

theorem store_word_at_size (M : FarMemory) (b : Buffer) (val : Int) :
    store_word M b BUFFER_SIZE val = { b with first_occupied_slot := to_unsigned val } := by
  simp [store_word]

theorem store_word_frame (M : FarMemory) (b : Buffer) (i : Nat) (val : Int)
    (h : i ≤ BUFFER_SIZE) :
    (store_word M b i val).sem_producer = b.sem_producer ∧
      (store_word M b i val).sem_consumer = b.sem_consumer ∧
        (store_word M b i val).first_empty_slot = b.first_empty_slot := by
  by_cases hi : i < BUFFER_SIZE
  · rw [store_word_inside M b i val hi]
    exact ⟨rfl, rfl, rfl⟩
  · have hi4 : i = BUFFER_SIZE := by omega
    subst hi4
    rw [store_word_at_size]
    exact ⟨rfl, rfl, rfl⟩

theorem add_section_mem_frame (M : FarMemory) (b : Buffer) (val : Int)
    (h : b.first_empty_slot ≤ BUFFER_SIZE) :
    (add_section_mem M b val).sem_producer = b.sem_producer ∧
      (add_section_mem M b val).sem_consumer = b.sem_consumer ∧
        (add_section_mem M b val).first_empty_slot = advance b.first_empty_slot := by
  obtain ⟨hp, hc, hw⟩ := store_word_frame M b b.first_empty_slot val h
  refine ⟨?_, ?_, ?_⟩
  · simpa [add_section_mem] using hp
  · simpa [add_section_mem] using hc
  · simp only [add_section_mem, hw]

theorem rem_section_mem_frame (M : FarMemory) (b : Buffer) :
    (rem_section_mem M b).2.sem_producer = b.sem_producer ∧
      (rem_section_mem M b).2.sem_consumer = b.sem_consumer ∧
        (rem_section_mem M b).2.first_empty_slot = b.first_empty_slot ∧
          (rem_section_mem M b).2.buf = b.buf :=
  ⟨rfl, rfl, rfl, rfl⟩

/-! ## Lemmas on the channel model -/

theorem chanStart_inv (b0 : Buffer) : ChanInv (chanStart b0) := by
  refine ⟨⟨?_, ?_⟩, ?_, ?_, ?_, ?_⟩ <;>
    simp [chanStart, buffer_init, sem_init, BUFFER_SIZE]

theorem chanStep_inv (M : FarMemory) (m m1 : ChanModel) (a : ChanAction)
    (hinv : ChanInv m) (h : chanStep M m a = some m1) : ChanInv m1 := by
  obtain ⟨⟨hp, hw⟩, hc, hpast, hcons, hcur⟩ := hinv
  cases a with
  | addEnter =>
    by_cases hcount : m.buf.sem_producer.count ≤ 0
    · simp only [chanStep, sem_wait_entry_blocks _ hcount, Option.some.injEq] at h
      subst h
      refine ⟨⟨hp, ?_⟩, ?_, hpast, hcons, hcur⟩ <;> simp only <;> push_cast <;> omega
    · have h1 : 1 ≤ m.buf.sem_producer.count := by omega
      simp only [chanStep, sem_wait_entry_passes _ h1, Option.some.injEq] at h
      subst h
      refine ⟨⟨hp, ?_⟩, ?_, ?_, hcons, hcur⟩ <;> simp only <;> push_cast <;> omega
  | addPoll =>
    by_cases hwz : m.addWaiting = 0
    · simp [chanStep, hwz] at h
    · by_cases hcond : 0 ≤ m.buf.sem_producer.count ∨ 0 < m.buf.sem_producer.pending_posts
      · simp only [chanStep, hwz, if_false, block_iter_success _ hcond,
          Option.some.injEq] at h
        subst h
        have hw1 : ((m.addWaiting - 1 : Nat) : Int) = (m.addWaiting : Int) - 1 := by omega
        refine ⟨⟨?_, ?_⟩, ?_, ?_, hcons, hcur⟩ <;> simp only <;> push_cast <;> omega
      · simp only [chanStep, hwz, if_false, block_iter_failure _ hcond,
          Option.some.injEq] at h
        subst h
        exact ⟨⟨hp, hw⟩, hc, hpast, hcons, hcur⟩
  | addStore v =>
    by_cases hz : m.addReady = 0
    · simp [chanStep, hz] at h
    · simp only [chanStep, hz, if_false, Option.some.injEq] at h
      subst h
      obtain ⟨hfp, hfc, hfw⟩ := add_section_mem_frame M m.buf v hcur
      refine ⟨⟨?_, ?_⟩, ?_, ?_, ?_, ?_⟩ <;> simp only [hfp, hfc, hfw] <;>
        first | assumption | exact advance_le _ | omega
  | addPost =>
    by_cases hz : m.addStored = 0
    · simp [chanStep, hz] at h
    · simp only [chanStep, hz, if_false, Option.some.injEq] at h
      subst h
      refine ⟨⟨hp, hw⟩, hc, ?_, ?_, hcur⟩ <;> simp only [sem_post_count] <;>
        push_cast <;> omega
  | remEnter =>
    by_cases hcount : m.buf.sem_consumer.count ≤ 0
    · simp only [chanStep, sem_wait_entry_blocks _ hcount, Option.some.injEq] at h
      subst h
      refine ⟨⟨hp, hw⟩, hc, hpast, ?_, hcur⟩
      simp only
      push_cast
      omega
    · have h1 : 1 ≤ m.buf.sem_consumer.count := by omega
      simp only [chanStep, sem_wait_entry_passes _ h1, Option.some.injEq] at h
      subst h
      refine ⟨⟨hp, hw⟩, hc, hpast, ?_, hcur⟩
      simp only
      push_cast
      omega
  | remPoll =>
    by_cases hwz : m.remWaiting = 0
    · simp [chanStep, hwz] at h
    · by_cases hcond : 0 ≤ m.buf.sem_consumer.count ∨ 0 < m.buf.sem_consumer.pending_posts
      · simp only [chanStep, hwz, if_false, block_iter_success _ hcond,
          Option.some.injEq] at h
        subst h
        refine ⟨⟨hp, hw⟩, hc, hpast, ?_, hcur⟩
        simp only
        push_cast
        omega
      · simp only [chanStep, hwz, if_false, block_iter_failure _ hcond,
          Option.some.injEq] at h
        subst h
        exact ⟨⟨hp, hw⟩, hc, hpast, hcons, hcur⟩
  | remLoad =>
    by_cases hz : m.remReady = 0
    · simp [chanStep, hz] at h
    · simp only [chanStep, hz, if_false, Option.some.injEq] at h
      subst h
      obtain ⟨hfp, hfc, hfw, _⟩ := rem_section_mem_frame M m.buf
      refine ⟨⟨?_, ?_⟩, ?_, ?_, ?_, ?_⟩ <;> simp only [hfp, hfc, hfw] <;>
        first | assumption | omega
  | remPost =>
    by_cases hz : m.remLoaded = 0
    · simp [chanStep, hz] at h
    · simp only [chanStep, hz, if_false, Option.some.injEq] at h
      subst h
      have hinv1 := sem_post_inv _ _ (⟨hp, hw⟩ : SemInv m.buf.sem_producer m.addWaiting)
      refine ⟨hinv1, ?_, hpast, ?_, hcur⟩ <;> simp only [sem_post_count] <;>
        push_cast <;> omega

theorem chanRun_inv (M : FarMemory) (acts : List ChanAction) :
    ∀ m m1 : ChanModel, ChanInv m → chanRun M m acts = some m1 → ChanInv m1 := by
  induction acts with
  | nil =>
    intro m m1 hinv h
    simp only [chanRun, Option.some.injEq] at h
    subst h
    exact hinv
  | cons a acts ih =>
    intro m m1 hinv h
    simp only [chanRun] at h
    cases hs : chanStep M m a with
    | none => simp [hs] at h
    | some m2 =>
      simp only [hs] at h
      exact ih m2 m1 (chanStep_inv M m m2 a hinv hs) h

theorem chanRun_replicate_fixed (M : FarMemory) (m : ChanModel) (a : ChanAction)
    (h : chanStep M m a = some m) : ∀ n, chanRun M m (List.replicate n a) = some m := by
  intro n
  induction n with
  | zero => rfl
  | succ n ih => simp only [List.replicate, chanRun, h, ih]

theorem full_blocks_until_take (M : FarMemory) (m : ChanModel) (hinv : ChanInv m)
    (hfull : FullAtRest m) : BlocksUntilTake M m := by
  obtain ⟨⟨hp, hw⟩, hc, hpast, hcons, hcur⟩ := hinv
  obtain ⟨hdone, h1, h2, h3, h4, h5, h6, h7⟩ := hfull
  obtain ⟨⟨buf, r, w, ⟨pc, pp⟩, ⟨cc, cp⟩⟩, aw, ar, ast, rw, rr, rl, apw, ad, rp⟩ := m
  simp only at hp hw hc hpast hcons hcur hdone h1 h2 h3 h4 h5 h6 h7
  subst h1 h2 h3 h4 h5 h6 h7
  have hapw : apw = BUFFER_SIZE := by omega
  have hpc : pc = 0 := by
    rw [hapw] at hc
    push_cast at hc
    omega
  have hpp : pp = 0 := by
    rw [hpc] at hw
    simpa using hw
  have hcc : cc = 4 := by
    rw [hdone] at hcons
    simpa [BUFFER_SIZE] using hcons
  subst hpc hpp hcc
  refine ⟨_, rfl, rfl, rfl, rfl, ?_, ⟨_, rfl, rfl⟩, ⟨_, rfl, rfl⟩, ⟨_, _, rfl, rfl, rfl, rfl⟩⟩
  exact chanRun_replicate_fixed _ _ _ rfl

/-! ## The claim on the channel model -/

/-- C4 (capacity bound): in every state of the channel model reachable from
`buffer_init` by interleaving the steps of calls of `add` and `rem`, however
many, the number of calls of `add` that have got past `sem_wait` on
`sem_producer` exceeds the number of calls of `rem` that have posted
`sem_producer` by at most `BUFFER_SIZE`; and when `BUFFER_SIZE` puts have
completed and no take has begun, the `sem_wait` of a further put leaves
`sem_producer.count = -1` and its polls of `block` fail, leaving the state
unchanged, until a `rem` posts `sem_producer`, after which the poll
succeeds. -/
theorem capacity_bound (M : FarMemory) (b0 : Buffer) (acts : List ChanAction)
    (m : ChanModel) (h : chanRun M (chanStart b0) acts = some m) :
    (m.addsPastWait : Int) - (m.remsPosted : Int) ≤ (BUFFER_SIZE : Int) ∧
      (FullAtRest m → BlocksUntilTake M m) := by
  have hinv := chanRun_inv M acts _ m (chanStart_inv b0) h
  refine ⟨?_, full_blocks_until_take M m hinv⟩
  obtain ⟨⟨hp, hw⟩, hc, _, _, _⟩ := hinv
  omega

theorem capacity_bound_witness :
    (((fullChannel.addsPastWait : Int) - (fullChannel.remsPosted : Int) ≤
        (BUFFER_SIZE : Int)) ∧ FullAtRest fullChannel ∧
        BlocksUntilTake zeroFar fullChannel) ∧
      ((overrunChannel.addsPastWait : Int) - (overrunChannel.remsPosted : Int) ≤
        (BUFFER_SIZE : Int)) :=
  have hfull : FullAtRest fullChannel := by
    unfold FullAtRest fullChannel
    decide
  have hrun : chanRun zeroFar (chanStart zeroBuffer)
      (putCall 1 ++ putCall 2 ++ putCall 3 ++ putCall 4) = some fullChannel := rfl
  have hlong : chanRun zeroFar (chanStart zeroBuffer)
      (putCall 1 ++ putCall 2 ++ putCall 3 ++ putCall 4 ++ takeCall ++ putCall 5) =
        some overrunChannel := rfl
  ⟨⟨(capacity_bound zeroFar zeroBuffer _ fullChannel hrun).1, hfull,
      (capacity_bound zeroFar zeroBuffer _ fullChannel hrun).2 hfull⟩,
    (capacity_bound zeroFar zeroBuffer _ overrunChannel hlong).1⟩

/-! ## Lemmas on runs of any length by one caller -/

theorem add_mem_ok (M : FarMemory) (fuel : Nat) (b b1 : Buffer) (v : Int)
    (hinv : MemInv b) (h : add_mem M fuel b v = some b1) :
    1 ≤ b.sem_producer.count ∧ MemInv b1 ∧
      b1.sem_consumer.count = b.sem_consumer.count + 1 ∧
      b1.first_empty_slot = advance b.first_empty_slot := by
  obtain ⟨hpp, hcp, hp0, hc0, hsum, hcur⟩ := hinv
  unfold add_mem at h
  cases hs : sem_wait fuel b.sem_producer with
  | none => simp [hs] at h
  | some sp =>
    obtain ⟨h1, hsp⟩ := sem_wait_no_pending fuel _ sp hpp hs
    simp only [hs, Option.some.injEq] at h
    obtain ⟨hfp, hfc, hfw⟩ :=
      add_section_mem_frame M { b with sem_producer := sp } v hcur
    have e1 : b1.sem_producer = sp := by rw [← h]; exact hfp
    have e2 : b1.sem_consumer = sem_post b.sem_consumer := by
      rw [← h]
      show sem_post (add_section_mem M { b with sem_producer := sp } v).sem_consumer = _
      rw [hfc]
    have e3 : b1.first_empty_slot = advance b.first_empty_slot := by rw [← h]; exact hfw
    have hn : ¬ b.sem_consumer.count + 1 ≤ 0 := by omega
    refine ⟨h1, ⟨?_, ?_, ?_, ?_, ?_, ?_⟩, ?_, e3⟩
    · rw [e1, hsp]
    · rw [e2, sem_post_pending, if_neg hn, hcp]
    · rw [e1, hsp]
      show 0 ≤ b.sem_producer.count - 1
      omega
    · rw [e2, sem_post_count]
      omega
    · rw [e1, e2, sem_post_count, hsp]
      show b.sem_producer.count - 1 + (b.sem_consumer.count + 1) = _
      omega
    · rw [e3]
      exact advance_le _
    · rw [e2, sem_post_count]

theorem rem_mem_ok (M : FarMemory) (fuel : Nat) (b b1 : Buffer) (v : Int)
    (hinv : MemInv b) (h : rem_mem M fuel b = some (v, b1)) :
    1 ≤ b.sem_consumer.count ∧ MemInv b1 ∧
      b1.sem_consumer.count = b.sem_consumer.count - 1 ∧
      b1.first_empty_slot = b.first_empty_slot ∧
      b1.first_occupied_slot = advance b.first_occupied_slot := by
  obtain ⟨hpp, hcp, hp0, hc0, hsum, hcur⟩ := hinv
  unfold rem_mem at h
  cases hs : sem_wait fuel b.sem_consumer with
  | none => simp [hs] at h
  | some sc =>
    obtain ⟨h1, hsc⟩ := sem_wait_no_pending fuel _ sc hcp hs
    simp only [hs, rem_section_mem, Option.some.injEq, Prod.mk.injEq] at h
    obtain ⟨hv, hb⟩ := h
    subst hb
    refine ⟨h1, ⟨?_, ?_, ?_, ?_, ?_, ?_⟩, ?_, rfl, rfl⟩
    · simp only [sem_post_pending]
      split_ifs <;> omega
    · simp only [hsc]
    · simp only [sem_post_count]
      omega
    · simp only [hsc]
      omega
    · simp only [sem_post_count, hsc]
      omega
    · exact hcur
    · simp only [hsc]

theorem add_mem_returns (M : FarMemory) (fuel : Nat) (b : Buffer) (v : Int)
    (h1 : 1 ≤ b.sem_producer.count) : ∃ b1, add_mem M fuel b v = some b1 := by
  simp [add_mem, sem_wait, sem_wait_entry_passes _ h1]

theorem rem_mem_returns (M : FarMemory) (fuel : Nat) (b : Buffer)
    (h1 : 1 ≤ b.sem_consumer.count) : ∃ v b1, rem_mem M fuel b = some (v, b1) := by
  simp [rem_mem, sem_wait, sem_wait_entry_passes _ h1, rem_section_mem]

theorem buffer_init_mem_inv (b0 : Buffer) : MemInv (buffer_init b0) := by
  refine ⟨rfl, rfl, ?_, ?_, ?_, ?_⟩ <;> simp [buffer_init, sem_init, BUFFER_SIZE]

theorem exec_mem_inv (M : FarMemory) (fuel : Nat) (ops : List Op) :
    ∀ (b b1 : Buffer) (out : List Int), MemInv b →
      exec_mem M fuel b ops = some (b1, out) →
        MemInv b1 ∧
          b1.sem_consumer.count =
            b.sem_consumer.count + ((puts ops).length : Int) - (takes ops : Int) ∧
          b1.first_empty_slot = Nat.iterate advance (puts ops).length b.first_empty_slot := by
  induction ops with
  | nil =>
    intro b b1 out hinv h
    simp only [exec_mem, Option.some.injEq, Prod.mk.injEq] at h
    obtain ⟨hb, _⟩ := h
    subst hb
    exact ⟨hinv, by simp [puts, takes], by simp [puts]⟩
  | cons op ops ih =>
    intro b b1 out hinv h
    cases op with
    | put v =>
      simp only [exec_mem] at h
      cases ha : add_mem M fuel b v with
      | none => simp [ha] at h
      | some b2 =>
        simp only [ha] at h
        obtain ⟨_, hinv2, hc2, hw2⟩ := add_mem_ok M fuel b b2 v hinv ha
        obtain ⟨hinv1, hc1, hw1⟩ := ih b2 b1 out hinv2 h
        refine ⟨hinv1, ?_, ?_⟩
        · simp only [puts, takes, List.length_cons]
          push_cast
          omega
        · simp only [puts, List.length_cons, Function.iterate_succ_apply]
          rw [hw1, hw2]
    | take =>
      simp only [exec_mem] at h
      cases hr : rem_mem M fuel b with
      | none => simp [hr] at h
      | some p =>
        obtain ⟨v, b2⟩ := p
        simp only [hr] at h
        cases he : exec_mem M fuel b2 ops with
        | none => simp [he] at h
        | some q =>
          obtain ⟨b3, out3⟩ := q
          simp only [he, Option.some.injEq, Prod.mk.injEq] at h
          obtain ⟨hb, _⟩ := h
          subst hb
          obtain ⟨_, hinv2, hc2, hw2, _⟩ := rem_mem_ok M fuel b b2 v hinv hr
          obtain ⟨hinv1, hc1, hw1⟩ := ih b2 b3 out3 hinv2 he
          refine ⟨hinv1, ?_, ?_⟩
          · simp only [puts, takes]
            push_cast
            omega
          · simp only [puts]
            rw [hw1, hw2]

theorem exec_mem_returns (M : FarMemory) (fuel : Nat) (ops : List Op) :
    ∀ (b : Buffer) (p t : Nat), MemInv b →
      b.sem_consumer.count = (p : Int) - (t : Int) →
      (∀ n, n ≤ ops.length →
        t + takes (ops.take n) ≤ p + (puts (ops.take n)).length ∧
          p + (puts (ops.take n)).length ≤ t + takes (ops.take n) + BUFFER_SIZE) →
      ∃ b1 out, exec_mem M fuel b ops = some (b1, out) := by
  induction ops with
  | nil =>
    intro b p t _ _ _
    exact ⟨b, [], rfl⟩
  | cons op ops ih =>
    intro b p t hinv hcount hnb
    have hinv' := hinv
    obtain ⟨hpp, hcp, hp0, hc0, hsum, hcur⟩ := hinv
    cases op with
    | put v =>
      have h1 : 1 ≤ b.sem_producer.count := by
        have := (hnb 1 (by simp only [List.length_cons]; omega)).2
        simp only [List.take_succ_cons, List.take_zero, takes, puts,
          List.length_cons, List.length_nil] at this
        omega
      obtain ⟨b2, hb2⟩ := add_mem_returns M fuel b v h1
      obtain ⟨_, hinv2, hc2, _⟩ := add_mem_ok M fuel b b2 v hinv' hb2
      obtain ⟨b1, out, hrun⟩ := ih b2 (p + 1) t hinv2
        (by rw [hc2, hcount]; push_cast; omega)
        (by
          intro n hn
          have := hnb (n + 1) (by simp only [List.length_cons]; omega)
          simp only [List.take_succ_cons, takes, puts, List.length_cons] at this
          omega)
      exact ⟨b1, out, by simp only [exec_mem, hb2, hrun]⟩
    | take =>
      have h1 : 1 ≤ b.sem_consumer.count := by
        have := (hnb 1 (by simp only [List.length_cons]; omega)).1
        simp only [List.take_succ_cons, List.take_zero, takes, puts,
          List.length_nil] at this
        omega
      obtain ⟨v, b2, hb2⟩ := rem_mem_returns M fuel b h1
      obtain ⟨_, hinv2, hc2, _⟩ := rem_mem_ok M fuel b b2 v hinv' hb2
      obtain ⟨b1, out, hrun⟩ := ih b2 p (t + 1) hinv2
        (by rw [hc2, hcount]; push_cast; omega)
        (by
          intro n hn
          have := hnb (n + 1) (by simp only [List.length_cons]; omega)
          simp only [List.take_succ_cons, takes, puts] at this
          omega)
      exact ⟨b1, v :: out, by simp only [exec_mem, hb2, hrun]⟩

theorem nonblocking_returns (M : FarMemory) (fuel : Nat) (b0 : Buffer) (ops : List Op)
    (hnb : NonBlocking ops) :
    ∃ b out, exec_mem M fuel (buffer_init b0) ops = some (b, out) :=
  exec_mem_returns M fuel ops (buffer_init b0) 0 0 (buffer_init_mem_inv b0)
    (by simp [buffer_init, sem_init])
    (by
      intro n hn
      have := hnb n hn
      omega)

/-- Where the checked semantics returns, the layout semantics returns the
same. -/
theorem add_mem_of_add (M : FarMemory) (fuel : Nat) (b b1 : Buffer) (v : Int)
    (h : add fuel b v = Except.ok b1) : add_mem M fuel b v = some b1 := by
  unfold add at h
  unfold add_mem
  cases hs : sem_wait fuel b.sem_producer with
  | none => simp [hs] at h
  | some sp =>
    simp only [hs] at h ⊢
    by_cases hw : b.first_empty_slot < BUFFER_SIZE
    · simp only [add_section, store, hw, dite_true, Except.ok.injEq] at h
      simp only [add_section_mem, store_word_inside M _ _ v hw, ← h]
    · simp [add_section, store, hw] at h

theorem rem_mem_of_rem (M : FarMemory) (fuel : Nat) (b b1 : Buffer) (v : Int)
    (h : rem fuel b = Except.ok (v, b1)) : rem_mem M fuel b = some (v, b1) := by
  unfold rem at h
  unfold rem_mem
  cases hs : sem_wait fuel b.sem_consumer with
  | none => simp [hs] at h
  | some sc =>
    simp only [hs] at h ⊢
    by_cases hr : b.first_occupied_slot < BUFFER_SIZE
    · simp only [rem_section, load, hr, dite_true, Except.ok.injEq,
        Prod.mk.injEq] at h
      obtain ⟨hv, hb⟩ := h
      simp only [rem_section_mem, load_word, hr, dite_true, ← hv, ← hb]
    · simp [rem_section, load, hr] at h

theorem exec_mem_of_exec (M : FarMemory) (fuel : Nat) (ops : List Op) :
    ∀ (b b1 : Buffer) (out : List Int), exec fuel b ops = Except.ok (b1, out) →
      exec_mem M fuel b ops = some (b1, out) := by
  induction ops with
  | nil =>
    intro b b1 out h
    simp only [exec, Except.ok.injEq] at h
    simp only [exec_mem, h]
  | cons op ops ih =>
    intro b b1 out h
    cases op with
    | put v =>
      simp only [exec] at h
      cases ha : add fuel b v with
      | error e => simp [ha] at h
      | ok b2 =>
        simp only [ha] at h
        simp only [exec_mem, add_mem_of_add M fuel b b2 v ha]
        exact ih b2 b1 out h
    | take =>
      simp only [exec] at h
      cases hr : rem fuel b with
      | error e => simp [hr] at h
      | ok p =>
        obtain ⟨v, b2⟩ := p
        simp only [hr] at h
        cases he : exec fuel b2 ops with
        | error e => simp [he] at h
        | ok q =>
          obtain ⟨b3, out3⟩ := q
          simp only [he, Except.ok.injEq, Prod.mk.injEq] at h
          obtain ⟨hb, hout⟩ := h
          subst hb hout
          simp only [exec_mem, rem_mem_of_rem M fuel b b2 v hr, ih b2 b3 out3 he]

/-- The run of `fivePuts` with the fifth store at the layout of the struct: the
calls of `rem` return `1, 0, 1, 2, 3`. -/
theorem overrun_outputs :
    outputs_mem (exec_mem zeroFar 0 (buffer_init zeroBuffer) fivePuts) =
      some [1, 0, 1, 2, 3] := by
  decide

/-! ## The claims on runs of any length by one caller -/

/-- C6 (slot accounting at rest): a sequence of calls of `add` and `rem` on a
freshly initialised channel in which no call has to block is completed,
however long it is, and after any completed sequence the counts of the two
semaphores add up to `BUFFER_SIZE` and the count of `sem_consumer` is the number
of completed adds minus the number of completed rems. -/
theorem slot_accounting (M : FarMemory) (fuel : Nat) (b0 : Buffer) (ops : List Op) :
    (NonBlocking ops → ∃ b out, exec_mem M fuel (buffer_init b0) ops = some (b, out)) ∧
    (∀ (b : Buffer) (out : List Int),
      exec_mem M fuel (buffer_init b0) ops = some (b, out) →
        b.sem_producer.count + b.sem_consumer.count = (BUFFER_SIZE : Int) ∧
          b.sem_consumer.count = ((puts ops).length : Int) - (takes ops : Int)) := by
  refine ⟨nonblocking_returns M fuel b0 ops, fun b out h => ?_⟩
  obtain ⟨⟨_, _, _, _, hsum, _⟩, hc, _⟩ :=
    exec_mem_inv M fuel ops (buffer_init b0) b out (buffer_init_mem_inv b0) h
  refine ⟨hsum, ?_⟩
  rw [hc]
  simp [buffer_init, sem_init]

theorem slot_accounting_witness :
    (∃ b out, exec_mem zeroFar 0 (buffer_init zeroBuffer) fivePuts = some (b, out)) ∧
      (afterFifthPut.sem_producer.count + afterFifthPut.sem_consumer.count =
          (BUFFER_SIZE : Int) ∧
        afterFifthPut.sem_consumer.count =
          ((puts fifthPut).length : Int) - (takes fifthPut : Int)) :=
  ⟨(slot_accounting zeroFar 0 zeroBuffer fivePuts).1 (by unfold NonBlocking; decide),
    (slot_accounting zeroFar 0 zeroBuffer fifthPut).2 afterFifthPut [1] rfl⟩

end ProducerConsumer
